import Mathlib

/-!
Verification development for the rosia-cli scan → match → size → clean → trash
pipeline.  The Go sources under internal/scanner, internal/sizecalc,
internal/trash, internal/cleaner and internal/profiles are shallowly embedded:
pure fragments become Lean functions, the filesystem becomes an explicit value
(`FSTree` / `ExtFS`), context cancellation becomes an explicit check counter
(`Ctx`), and environmental failures of `os.Rename` / `os.WriteFile` /
`os.MkdirAll` / `os.RemoveAll` are failure-injection oracles where a claim
quantifies over them.  Machine `int64` sizes and timestamps are modelled as
`Int` (the quantities involved — file sizes and Unix times — stay far below
2^63, so wrap-around never distinguishes the model from the code).
-/

namespace Rosia

/-! ### Paths

A filesystem path is its list of components ("/a/b" ↦ ["a", "b"]).
`pathToString` renders the absolute path back to the string form used by the
Go code when it compares a walked path against `IgnorePaths` entries.  -/

abbrev Path := List String

def pathToString (p : Path) : String :=
  "/" ++ String.intercalate "/" p

/-- filepath.Base: last path element ("/" for the empty path). -/
def pathBase (p : Path) : String :=
  p.getLastD "/"

/-- filepath.Dir: the path with its last element removed. -/
def pathDir (p : Path) : Path :=
  p.dropLast

/-! ### Go's `filepath.Match`

Direct recursive rendering of path/filepath/match.go.  `*` matches any run of
non-separator characters, `?` a single non-separator character, `[...]` a
character class (ranges, `^` negation, `\`-escapes; a class may match the
separator, exactly as in the Go code), `\x` the literal `x`.  A malformed
pattern makes Go's `Match` return `ErrBadPattern`; every call site in the
repository treats that the same as a non-match, so the model returns `false`
there.  -/

mutual

/-- Matching loop, totalised by a fuel argument so it reduces in the kernel;
every recursive call strictly shrinks `pat.length + s.length`, so the wrapper
`goMatch` below supplies fuel that can never run out. -/
def goMatchF : Nat → List Char → List Char → Bool
  | 0, _, _ => false
  | fuel + 1, pat, s =>
    match pat, s with
    | [], [] => true
    | [], _ :: _ => false
    | '*' :: ps, s =>
      goMatchF fuel ps s ||
        (match s with
         | [] => false
         | c :: cs => !(c == '/') && goMatchF fuel ('*' :: ps) cs)
    | '?' :: ps, s =>
      (match s with
       | [] => false
       | c :: cs => !(c == '/') && goMatchF fuel ps cs)
    | '[' :: '^' :: ps, s =>
      (match s with
       | [] => false
       | c :: cs => goClassF fuel c ps cs false false true)
    | '[' :: ps, s =>
      (match s with
       | [] => false
       | c :: cs => goClassF fuel c ps cs false false false)
    | '\\' :: [], _ => false
    | '\\' :: p :: ps, s =>
      (match s with
       | [] => false
       | c :: cs => (p == c) && goMatchF fuel ps cs)
    | p :: ps, s =>
      (match s with
       | [] => false
       | c :: cs => (p == c) && goMatchF fuel ps cs)

/-- One character class: scans ranges until the closing `]`, then hands the
rest of the pattern back to `goMatchF`.  Arguments: fuel, the consumed
character, the remaining pattern, the remaining string, whether at least one
range was seen, the accumulated hit, and the negation flag. -/
def goClassF : Nat → Char → List Char → List Char → Bool → Bool → Bool → Bool
  | 0, _, _, _, _, _, _ => false
  | fuel + 1, c, pat, cs, seen, acc, neg =>
    match pat with
    | ']' :: rest =>
      if seen then (if acc != neg then goMatchF fuel rest cs else false) else false
    | '\\' :: lo :: '-' :: '\\' :: hi :: rest =>
      goClassF fuel c rest cs true (acc || (decide (lo ≤ c) && decide (c ≤ hi))) neg
    | '\\' :: _ :: '-' :: ']' :: _ => false
    | '\\' :: _ :: '-' :: '-' :: _ => false
    | '\\' :: _ :: '-' :: '\\' :: [] => false
    | '\\' :: lo :: '-' :: hi :: rest =>
      goClassF fuel c rest cs true (acc || (decide (lo ≤ c) && decide (c ≤ hi))) neg
    | '\\' :: _ :: '-' :: [] => false
    | '\\' :: lo :: rest =>
      goClassF fuel c rest cs true (acc || (c == lo)) neg
    | '\\' :: [] => false
    | '-' :: _ => false
    | lo :: '-' :: '\\' :: hi :: rest =>
      goClassF fuel c rest cs true (acc || (decide (lo ≤ c) && decide (c ≤ hi))) neg
    | _ :: '-' :: ']' :: _ => false
    | _ :: '-' :: '-' :: _ => false
    | _ :: '-' :: '\\' :: [] => false
    | lo :: '-' :: hi :: rest =>
      goClassF fuel c rest cs true (acc || (decide (lo ≤ c) && decide (c ≤ hi))) neg
    | _ :: '-' :: [] => false
    | lo :: rest =>
      goClassF fuel c rest cs true (acc || (c == lo)) neg
    | [] => false

end

/-- Go's `filepath.Match` on character lists. -/
def goMatch (pat s : List Char) : Bool :=
  goMatchF (pat.length + s.length + 1) pat s

/-- String-level wrapper matching the Go call `filepath.Match(pattern, name)`
with errors collapsed to `false` (as every caller in the repository does). -/
def goMatchStr (pattern name : String) : Bool :=
  goMatch pattern.toList name.toList

example : goMatchStr "*.toml" "Cargo.toml" = true := by decide
example : goMatchStr "*.toml" "a/b.toml" = false := by decide
example : goMatchStr "node_modules" "node_modules" = true := by decide
example : goMatchStr "[a-c]x" "bx" = true := by decide
example : goMatchStr "[^a-c]x" "bx" = false := by decide
example : goMatchStr "[invalid" "i" = false := by decide

/-! ### Filesystem model

A snapshot of a directory tree.  Directory children are stored in the lexical
order in which `filepath.WalkDir` visits them (Go sorts directory entries
before walking); modification times are abstract `Nat` instants.  -/

inductive FSTree where
  | file (name : String) (size : Int) (mtime : Nat)
  | symlink (name : String) (mtime : Nat)
  | dir (name : String) (mtime : Nat) (children : List FSTree)

def FSTree.name : FSTree → String
  | .file n _ _ => n
  | .symlink n _ => n
  | .dir n _ _ => n

def FSTree.mtime : FSTree → Nat
  | .file _ _ m => m
  | .symlink _ m => m
  | .dir _ m _ => m

def FSTree.isDir : FSTree → Bool
  | .dir _ _ _ => true
  | _ => false

def FSTree.childrenOf : FSTree → List FSTree
  | .dir _ _ cs => cs
  | _ => []

/-- Navigate a tree along a relative component path (how a chain of `os.Stat`
lookups resolves `filepath.Join(dirPath, rel)` against the snapshot). -/
def findNode (t : FSTree) : List String → Option FSTree
  | [] => some t
  | nm :: rest =>
    match t with
    | .dir _ _ cs =>
      match cs.find? (fun c => c.name == nm) with
      | some c => findNode c rest
      | none => none
    | _ => none

/-- `filepath.Glob(dir ++ "/" ++ pattern)` has at least one hit: every pattern
component must glob-match a child name level by level. -/
def globAny (t : FSTree) : List String → Bool
  | [] => true
  | comp :: rest => t.childrenOf.any (fun c => goMatch comp.toList c.name.toList && globAny c rest)

def nodupNames : List String → Bool
  | [] => true
  | n :: ns => !(ns.contains n) && nodupNames ns

mutual

/-- Well-formedness of a snapshot: sibling names are distinct at every level,
as they are on a real filesystem. -/
def FSTree.wfb : FSTree → Bool
  | .file _ _ _ => true
  | .symlink _ _ => true
  | .dir _ _ cs => nodupNames (cs.map FSTree.name) && wfbList cs

def wfbList : List FSTree → Bool
  | [] => true
  | c :: cs => FSTree.wfb c && wfbList cs

end

/-- The visible filesystem: a finite set of objects, each recorded under its
absolute path.  A path exists (`statOk`) when it is an entry or an ancestor
directory of an entry; entry keys are never nested below one another in a
well-formed snapshot (`ExtFS.wfb`). -/
abbrev ExtFS := List (Path × FSTree)

def ExtFS.statOk (fs : ExtFS) (p : Path) : Bool :=
  fs.any (fun e => e.1 == p || decide (p <+: e.1))

/-- Resolve a path to the tree node it denotes, entering entry trees. -/
def ExtFS.resolve (fs : ExtFS) (p : Path) : Option FSTree :=
  fs.findSome? (fun e =>
    if e.1.isPrefixOf p then findNode e.2 (p.drop e.1.length) else none)

/-- `os.MkdirAll`: ensure the path and all its parents exist.  In the
prefix-closed `ExtFS` representation it suffices to add one (empty) directory
entry when nothing makes the path exist yet. -/
def ExtFS.mkdirAll (fs : ExtFS) (p : Path) : ExtFS :=
  if fs.statOk p then fs else (p, FSTree.dir (pathBase p) 0 []) :: fs

/-- `os.RemoveAll p`: drop the object at `p` together with everything below. -/
def ExtFS.removeAll (fs : ExtFS) (p : Path) : ExtFS :=
  fs.filter (fun e => !(e.1 == p || decide (p <+: e.1)))

/-- Keys never nested, each entry tree well-formed and named after its key. -/
def ExtFS.wf (fs : ExtFS) : Prop :=
  (fs.map (·.1)).Pairwise (fun a b => ¬ a <+: b ∧ ¬ b <+: a) ∧
    ∀ e ∈ fs, e.2.wfb = true ∧ e.2.name = pathBase e.1

/-! ### Profiles and targets (pkg/types) -/

structure Profile where
  name : String
  version : String
  patterns : List String
  detect : List String
  description : String
  enabled : Bool
deriving DecidableEq

structure Target where
  path : Path
  size : Int
  type : String
  profileName : String
  lastAccessed : Nat
  isDirectory : Bool
deriving DecidableEq

/-! ### Profile matching (internal/profiles, `MatchProfile` / `MatchesPattern`)

`matchesDetectCount` embeds `matchesDetectPatterns` and additionally counts
the filesystem accesses it performs (one `os.Stat` per detect entry tried,
plus one `filepath.Glob` when the entry has wildcard characters), so the
cache claim can speak about "zero additional filesystem accesses". -/

def hasGlobChars (s : String) : Bool :=
  s.toList.any (fun c => c == '*' || c == '?' || c == '[' || c == ']')

/-- Split a relative pattern such as `"cmd/main.go"` into its path
components (the effect of `filepath.Join(dirPath, pattern)` followed by the
component-wise lookup). -/
def splitSlashAux : List Char → List Char → List String
  | [], acc => [String.mk acc.reverse]
  | '/' :: rest, acc => String.mk acc.reverse :: splitSlashAux rest []
  | c :: rest, acc => splitSlashAux rest (c :: acc)

def splitSlash (s : String) : List String :=
  splitSlashAux s.toList []

def matchesDetectCount (t : FSTree) : List String → Bool × Nat
  | [] => (false, 0)
  | pat :: rest =>
    if (findNode t (splitSlash pat)).isSome then (true, 1)
    else if hasGlobChars pat then
      if globAny t (splitSlash pat) then (true, 2)
      else
        let r := matchesDetectCount t rest
        (r.1, 2 + r.2)
    else
      let r := matchesDetectCount t rest
      (r.1, 1 + r.2)

def matchesDetectPatterns (t : FSTree) (detect : List String) : Bool :=
  (matchesDetectCount t detect).1

/-- `MatchesPattern`: the name glob-matches a cleanup pattern or equals one. -/
def MatchesPattern (name : String) (pr : Profile) : Bool :=
  pr.patterns.any (fun pat => goMatchStr pat name || name == pat)

/-- `MatchProfile` ignoring the cache: the first enabled profile whose detect
set has a hit in the directory (`nil` for non-directories).  During one scan
the filesystem snapshot is fixed, so the cached `MatchProfile` used by the
walker always returns exactly this value; the scanner embedding below uses
this pure form. -/
def matchProfilePure (profiles : List Profile) (t : FSTree) : Option Profile :=
  if t.isDir then profiles.find? (fun pr => pr.enabled && matchesDetectPatterns t pr.detect)
  else none

/-- First enabled hit in an indexed profile list, with the total number of
filesystem accesses spent scanning.  The returned index models the `*Profile`
pointer into the loader's profile slice (pointer identity = index identity). -/
def matchLoop (t : FSTree) : List (Nat × Profile) → Option Nat × Nat
  | [] => (none, 0)
  | (i, pr) :: rest =>
    if pr.enabled then
      let d := matchesDetectCount t pr.detect
      if d.1 then (some i, d.2)
      else
        let r := matchLoop t rest
        (r.1, d.2 + r.2)
    else matchLoop t rest

/-- Loader state: the immutable profile list and the match cache.  The cache
maps a directory path to the cached result, which may be `none` — Go stores a
nil `*Profile` in the map and `exists` is still true for it. -/
structure Loader where
  profiles : List Profile
  matchCache : List (Path × Option Nat)

inductive MatchErr where
  | statFailed
deriving DecidableEq

def cacheLookup (cache : List (Path × Option Nat)) (p : Path) : Option (Option Nat) :=
  match cache.find? (fun e => e.1 == p) with
  | some e => some e.2
  | none => none

/-- `Loader.MatchProfile` with cache and access counting.  Returns the result
(`.ok (some i)` = pointer to profile `i`, `.ok none` = no match), the updated
loader, and the number of filesystem accesses performed.  Mirrors the source:
cache hit returns immediately; a stat failure returns the error uncached; a
non-directory returns nil uncached; the directory scan caches both a match
and a no-match. -/
def Loader.MatchProfileS (l : Loader) (fs : ExtFS) (dirPath : Path) :
    Except MatchErr (Option Nat) × Loader × Nat :=
  match cacheLookup l.matchCache dirPath with
  | some cached => (.ok cached, l, 0)
  | none =>
    match fs.resolve dirPath with
    | none => (.error .statFailed, l, 1)
    | some t =>
      if t.isDir then
        let r := matchLoop t l.profiles.enum
        (.ok r.1, { l with matchCache := (dirPath, r.1) :: l.matchCache }, 1 + r.2)
      else (.ok none, l, 1)

/-- `ClearCache`. -/
def Loader.ClearCache (l : Loader) : Loader :=
  { l with matchCache := [] }

/-! ### Cooperative cancellation

`context.Context` cancellation is modelled by numbering the `ctx.Done()`
checks an execution performs: the signal "fires" between the `k`-th and the
`(k+1)`-th check, so check number `n` observes a cancelled context exactly
when `k < n`.  `cancelAfter = none` is a context that is never cancelled. -/

structure Ctx where
  cancelAfter : Option Nat
deriving DecidableEq

def Ctx.done (c : Ctx) (n : Nat) : Bool :=
  match c.cancelAfter with
  | none => false
  | some k => decide (k < n)

/-! ### Size calculator (internal/sizecalc)

`Calculate` lstat-s the path (failure = `none`), returns 0 for a symlink, the
size for a regular file, and for a directory the sum of the sizes of all
regular files beneath it: symlinks are skipped and never followed.
`CalculateTargetsC` embeds `CalculateTargets`.  The Go version distributes
the per-index jobs over a worker pool; every worker writes only `results[idx]`
under the shared mutex and the error slice order is the only
schedule-dependent datum, so processing the indices in submission order is an
admissible serialisation.  Workers check the context before each unit of
work; once cancelled the remaining entries keep the sizes they were copied
in with. -/

mutual

def treeSize : FSTree → Int
  | .file _ s _ => s
  | .symlink _ _ => 0
  | .dir _ _ cs => treeSizeList cs

def treeSizeList : List FSTree → Int
  | [] => 0
  | c :: cs => treeSize c + treeSizeList cs

end

def Calculate (fs : ExtFS) (p : Path) : Option Int :=
  match fs.resolve p with
  | none => none
  | some t => some (treeSize t)

inductive CalcErr where
  | canceled
  | failures (n : Nat)
deriving DecidableEq

/-- Worker loop state: processed prefix, error count, check counter; the last
component records whether cancellation cut the batch short. -/
def calcGo (ctx : Ctx) (fs : ExtFS) (acc : List Target) (errs : Nat) (n : Nat) :
    List Target → List Target × Nat × Nat × Bool
  | [] => (acc, errs, n, false)
  | t :: ts =>
    let n1 := n + 1
    if ctx.done n1 then (acc ++ t :: ts, errs, n1, true)
    else
      match Calculate fs t.path with
      | none => calcGo ctx fs (acc ++ [t]) (errs + 1) n1 ts
      | some sz => calcGo ctx fs (acc ++ [{ t with size := sz }]) errs n1 ts

/-- `CalculateTargets(ctx, targets)`: result slice, aggregate error, final
check count.  An empty batch returns immediately; cancellation yields the
context's error; otherwise a non-zero error count yields the aggregate
error. -/
def CalculateTargetsC (ctx : Ctx) (fs : ExtFS) (targets : List Target) (n : Nat) :
    List Target × Option CalcErr × Nat :=
  if targets.isEmpty then (targets, none, n)
  else
    match calcGo ctx fs [] 0 n targets with
    | (res, errs, n2, cancelled) =>
      if cancelled then (res, some .canceled, n2)
      else if errs > 0 then (res, some (.failures errs), n2)
      else (res, none, n2)

/-- All target fields except `size`. -/
def frameEq (a b : Target) : Prop :=
  a.path = b.path ∧ a.type = b.type ∧ a.profileName = b.profileName ∧
    a.isDirectory = b.isDirectory ∧ a.lastAccessed = b.lastAccessed

theorem frameEq_refl (a : Target) : frameEq a a :=
  ⟨rfl, rfl, rfl, rfl, rfl⟩

theorem frameEq_forall2_refl (l : List Target) : List.Forall₂ frameEq l l := by
  induction l with
  | nil => exact List.Forall₂.nil
  | cons a l ih => exact List.Forall₂.cons (frameEq_refl a) ih

theorem calcGo_frame (ctx : Ctx) (fs : ExtFS) :
    ∀ (rest : List Target) (acc : List Target) (errs n : Nat),
      ∃ out, (calcGo ctx fs acc errs n rest).1 = acc ++ out ∧
        List.Forall₂ frameEq rest out := by
  intro rest
  induction rest with
  | nil => intro acc errs n; exact ⟨[], by simp [calcGo], List.Forall₂.nil⟩
  | cons t ts ih =>
    intro acc errs n
    by_cases hc : ctx.done (n + 1) = true
    · refine ⟨t :: ts, by simp [calcGo, hc], ?_⟩
      exact List.Forall₂.cons (frameEq_refl t) (frameEq_forall2_refl ts)
    · simp only [calcGo, hc]
      cases hcal : Calculate fs t.path with
      | none =>
        obtain ⟨out, h1, h2⟩ := ih (acc ++ [t]) (errs + 1) (n + 1)
        exact ⟨t :: out, by simpa using h1, List.Forall₂.cons (frameEq_refl t) h2⟩
      | some sz =>
        obtain ⟨out, h1, h2⟩ := ih (acc ++ [{ t with size := sz }]) errs (n + 1)
        refine ⟨{ t with size := sz } :: out, by simpa using h1, ?_⟩
        exact List.Forall₂.cons ⟨rfl, rfl, rfl, rfl, rfl⟩ h2

theorem calculateTargetsC_frame_aux (ctx : Ctx) (fs : ExtFS) (targets : List Target)
    (n : Nat) : List.Forall₂ frameEq targets (CalculateTargetsC ctx fs targets n).1 := by
  unfold CalculateTargetsC
  by_cases he : targets.isEmpty
  · simp only [he, if_true]
    cases targets with
    | nil => exact List.Forall₂.nil
    | cons a l => simp [List.isEmpty] at he
  · simp only [he, if_false]
    obtain ⟨out, h1, h2⟩ := calcGo_frame ctx fs targets [] 0 n
    have : (calcGo ctx fs [] 0 n targets).1 = out := by simpa using h1
    rcases hgo : calcGo ctx fs [] 0 n targets with ⟨res, errs, n2, cancelled⟩
    have hres : res = out := by rw [hgo] at this; simpa using this
    subst hres
    by_cases hcan : cancelled
    · simpa [hgo, hcan] using h2
    · by_cases herr : errs > 0 <;> simp [hgo, hcan, herr, h2]

/-- C9: `CalculateTargets` returns the same slice with sizes populated in
place — for any context, filesystem snapshot and batch, the returned list is
pointwise frame-equal to the input (same length and order; the path, type,
profile name, directory flag and last-accessed time of every entry are
unchanged, only `size` may differ). -/
theorem calculateTargets_frame (ctx : Ctx) (fs : ExtFS) (targets : List Target) (n : Nat) :
    List.Forall₂ frameEq targets (CalculateTargetsC ctx fs targets n).1 :=
  calculateTargetsC_frame_aux ctx fs targets n

def countFailures (fs : ExtFS) (l : List Target) : Nat :=
  l.countP (fun t => (Calculate fs t.path).isNone)

theorem calcGo_nocancel (fs : ExtFS) :
    ∀ (rest acc : List Target) (errs n : Nat),
      (calcGo ⟨none⟩ fs acc errs n rest).2.1 = errs + countFailures fs rest ∧
        (calcGo ⟨none⟩ fs acc errs n rest).2.2.2 = false := by
  intro rest
  induction rest with
  | nil => intro acc errs n; simp [calcGo, countFailures]
  | cons t ts ih =>
    intro acc errs n
    have hc : Ctx.done ⟨none⟩ (n + 1) = false := rfl
    simp only [calcGo, hc, Bool.false_eq_true, if_false]
    cases hcal : Calculate fs t.path with
    | none =>
      obtain ⟨h1, h2⟩ := ih (acc ++ [t]) (errs + 1) (n + 1)
      refine ⟨?_, h2⟩
      rw [h1]
      simp [countFailures, List.countP_cons, hcal]
      omega
    | some sz =>
      obtain ⟨h1, h2⟩ := ih (acc ++ [{ t with size := sz }]) errs (n + 1)
      refine ⟨?_, h2⟩
      rw [h1]
      simp [countFailures, List.countP_cons, hcal]

/-- C4 counterexample: a two-target batch in which the first path sizes
successfully and only the second fails still makes `CalculateTargets` return
a non-nil aggregate error — the claim "non-nil error only if every path
failed" is false on the code. -/
theorem calculateTargets_partial_failure_error_ce :
    (CalculateTargetsC ⟨none⟩ [( ["a"], FSTree.dir "a" 0 [FSTree.file "f" 10 0] )]
        [⟨["a", "f"], 0, "t", "t", 0, false⟩, ⟨["missing"], 0, "t", "t", 0, false⟩] 0).2.1 =
      some (.failures 1) ∧
    Calculate [( ["a"], FSTree.dir "a" 0 [FSTree.file "f" 10 0] )] ["a", "f"] = some 10 := by
  constructor <;> rfl

/-- C4 (amended): with an uncancelled context, `CalculateTargets` returns a
non-nil error iff at least one path failed to be sized (not only when all
did); the slice is returned alongside with its length intact, partial
failures having been collected without failing the rest of the batch. -/
theorem calculateTargets_error_iff_some_failure (fs : ExtFS) (targets : List Target) (n : Nat) :
    ((CalculateTargetsC ⟨none⟩ fs targets n).2.1 ≠ none ↔
      ∃ t ∈ targets, Calculate fs t.path = none) ∧
    (CalculateTargetsC ⟨none⟩ fs targets n).1.length = targets.length := by
  have hlen : (CalculateTargetsC ⟨none⟩ fs targets n).1.length = targets.length := by
    have h := calculateTargetsC_frame_aux ⟨none⟩ fs targets n
    exact (List.Forall₂.length_eq h).symm
  refine ⟨?_, hlen⟩
  unfold CalculateTargetsC
  by_cases he : targets.isEmpty
  · cases targets with
    | nil => simp
    | cons a l => simp [List.isEmpty] at he
  · simp only [he, if_false]
    obtain ⟨herr, hcan⟩ := calcGo_nocancel fs targets [] 0 n
    rcases hgo : calcGo ⟨none⟩ fs [] 0 n targets with ⟨res, errs, n2, cancelled⟩
    rw [hgo] at herr hcan
    simp only at herr hcan
    subst hcan
    have hcount : errs = countFailures fs targets := by simpa using herr
    by_cases hpos : errs > 0
    · simp only [Bool.false_eq_true, if_false, hpos, if_true]
      simp only [ne_eq, reduceCtorEq, not_false_eq_true, true_iff]
      have : 0 < List.countP (fun t => (Calculate fs t.path).isNone) targets := by
        rw [← countFailures, ← hcount]; exact hpos
      obtain ⟨t, ht, hp⟩ := List.countP_pos_iff.mp this
      exact ⟨t, ht, by simpa using hp⟩
    · simp only [Bool.false_eq_true, if_false, hpos, ne_eq, not_true_eq_false, false_iff,
        not_exists, not_and]
      intro t ht hcal
      have : 0 < List.countP (fun t => (Calculate fs t.path).isNone) targets :=
        List.countP_pos_iff.mpr ⟨t, ht, by simp [hcal]⟩
      rw [← countFailures, ← hcount] at this
      omega

/-! ### Trash subsystem (internal/trash)

State: the visible filesystem plus the trash directory, one `ItemDir` per
trashed item (its `metadata.json`, if written, and its `content` entry, if
the rename happened).  `os.Rename` gets a failure-injection flag because the
claims quantify over its failure; `os.MkdirAll` / `os.WriteFile` get one as
well for `Move` (the rollback claim is about arbitrary partial failures);
`os.RemoveAll` of an existing directory is given its clean semantics — the
code ignores its error in `Restore` and the claims do not quantify over
it. -/

structure TrashMetadata where
  id : String
  originalPath : Path
  size : Int
  deletedAt : Int
  profileName : String
deriving DecidableEq

structure ItemDir where
  metadata : Option TrashMetadata
  content : Option FSTree

abbrev TrashFS := List (String × ItemDir)

def trashLookup (tr : TrashFS) (id : String) : Option ItemDir :=
  (tr.find? (fun e => e.1 == id)).map (·.2)

def trashSet (tr : TrashFS) (id : String) (it : ItemDir) : TrashFS :=
  tr.map (fun e => if e.1 == id then (e.1, it) else e)

def trashRemove (tr : TrashFS) (id : String) : TrashFS :=
  tr.filter (fun e => !(e.1 == id))

def FSTree.rename : FSTree → String → FSTree
  | .file _ s m, nm => .file nm s m
  | .symlink _ m, nm => .symlink nm m
  | .dir _ m cs, nm => .dir nm m cs

/-- Remove the entry `p` from the visible filesystem, returning the detached
tree — the reading half of `os.Rename(p, …)`.  Renaming anything that is not
a recorded object fails. -/
def ExtFS.takeEntry (fs : ExtFS) (p : Path) : Option FSTree × ExtFS :=
  match fs.find? (fun e => e.1 == p) with
  | some e => (some e.2, fs.filter (fun e2 => !(e2.1 == p)))
  | none => (none, fs)

structure World where
  external : ExtFS
  trash : TrashFS
  parentWritable : Path → Bool

structure MoveOracles where
  mkdirFails : Bool
  writeFails : Bool
  renameFails : Bool

inductive TrashErr where
  | mkdirFailed
  | writeMetadataFailed
  | renameFailed
  | metadataNotFound (id : String)
  | conflict (p : Path)
  | restoreRenameFailed
deriving DecidableEq

/-- `Move(target)` (trash.go): build `id = timestamp ++ "_" ++ basename`,
`MkdirAll` the item directory, write `metadata.json`, then rename the
original path onto the fixed `content` name; a rename failure rolls the item
directory back with `os.RemoveAll` and returns the error.  `nowFmt` is the
formatted `time.Now()` used in the id, `now` the instant recorded in the
metadata.  The rename succeeds when the original path is a recorded object,
the oracle does not inject a failure, and no `content` entry already occupies
the name (the timestamp-collision case). -/
def Move (w : World) (target : Target) (nowFmt : String) (now : Int) (o : MoveOracles) :
    Except TrashErr String × World :=
  let id := nowFmt ++ "_" ++ pathBase target.path
  if o.mkdirFails then (.error .mkdirFailed, w)
  else
    let tr1 := if (trashLookup w.trash id).isSome then w.trash else w.trash ++ [(id, ⟨none, none⟩)]
    if o.writeFails then (.error .writeMetadataFailed, { w with trash := tr1 })
    else
      let md : TrashMetadata := ⟨id, target.path, target.size, now, target.profileName⟩
      let cur := (trashLookup tr1 id).getD ⟨none, none⟩
      let tr2 := trashSet tr1 id ⟨some md, cur.content⟩
      match ExtFS.takeEntry w.external target.path with
      | (some node, ext2) =>
        if o.renameFails then (.error .renameFailed, { w with trash := trashRemove tr2 id })
        else
          match cur.content with
          | some _ => (.error .renameFailed, { w with trash := trashRemove tr2 id })
          | none =>
            (.ok id, { w with external := ext2,
                              trash := trashSet tr2 id ⟨some md, some (node.rename "content")⟩ })
      | (none, _) => (.error .renameFailed, { w with trash := trashRemove tr2 id })

/-- `GetMetadata(id)`: read and parse `metadata.json`. -/
def GetMetadata (w : World) (id : String) : Except TrashErr TrashMetadata :=
  match trashLookup w.trash id with
  | some it =>
    match it.metadata with
    | some md => .ok md
    | none => .error (.metadataNotFound id)
  | none => .error (.metadataNotFound id)

/-- `Restore(id)` (trash.go): load metadata; refuse when the original path
already exists; `MkdirAll` the parent; rename `content` back; remove the item
directory. -/
def Restore (w : World) (id : String) (renameFails : Bool) : Option TrashErr × World :=
  match GetMetadata w id with
  | .error e => (some e, w)
  | .ok md =>
    if w.external.statOk md.originalPath then (some (.conflict md.originalPath), w)
    else
      let ext1 := w.external.mkdirAll (pathDir md.originalPath)
      let it := (trashLookup w.trash id).getD ⟨none, none⟩
      match it.content, renameFails with
      | some node, false =>
        ((none : Option TrashErr),
          { w with external := (md.originalPath, node.rename (pathBase md.originalPath)) :: ext1,
                   trash := trashRemove w.trash id })
      | _, _ => (some .restoreRenameFailed, { w with external := ext1 })

/-- The items `List()` reports whose deletion timestamp is strictly before
the cutoff `now - retention` — the set `Clean` tries to remove. -/
def trashVictims (tr : TrashFS) (retention now : Int) : List (String × Int) :=
  (tr.filterMap (fun e => e.2.metadata.map (fun md => (e.1, md.deletedAt)))).filter
    (fun im => decide (im.2 < now - retention))

/-- The removal loop of `Clean`: try each victim, collect failures, keep
going. -/
def trashCleanGo (removeFails : String → Bool) :
    List (String × Int) → TrashFS → List String → TrashFS × List String
  | [], tr, errs => (tr, errs)
  | (id, _) :: rest, tr, errs =>
    if removeFails id then trashCleanGo removeFails rest tr (errs ++ [id])
    else trashCleanGo removeFails rest (trashRemove tr id) errs

/-- `Clean(retentionPeriod)` (trash.go): list items, remove those whose
`DeletedAt` is before `now - retentionPeriod`, collect per-item failures and
report them together only at the end. -/
def TrashClean (w : World) (retention : Int) (now : Int) (removeFails : String → Bool) :
    Option (List String) × World :=
  let r := trashCleanGo removeFails (trashVictims w.trash retention now) w.trash []
  (if r.2.isEmpty then none else some r.2, { w with trash := r.1 })

/-! ### Trash helper lemmas -/

/-- No trash item has metadata without content or content without metadata. -/
def orphanFree (tr : TrashFS) : Prop :=
  ∀ e ∈ tr, e.2.metadata.isSome = e.2.content.isSome

theorem trashLookup_remove_self (tr : TrashFS) (id : String) :
    trashLookup (trashRemove tr id) id = none := by
  induction tr with
  | nil => rfl
  | cons e tr ih =>
    by_cases h : e.1 == id
    · simp only [trashRemove, List.filter_cons, h]
      exact ih
    · simp only [trashRemove, trashLookup, List.filter_cons, List.find?, h, Bool.not_false,
        if_true]
      exact ih

theorem trashLookup_remove_other (tr : TrashFS) (id id2 : String) (h : id ≠ id2) :
    trashLookup (trashRemove tr id2) id = trashLookup tr id := by
  induction tr with
  | nil => rfl
  | cons e tr ih =>
    by_cases h2 : e.1 == id2
    · have hne : (e.1 == id) = false := by
        simp only [beq_iff_eq] at h2
        rw [beq_eq_false_iff_ne]
        intro hc
        exact h (by rw [← hc]; exact h2)
      simp only [trashRemove, List.filter_cons, h2] at *
      simpa [trashLookup, List.find?, hne] using ih
    · by_cases h1 : e.1 == id
      · simp [trashRemove, trashLookup, List.filter_cons, List.find?, h1, h2]
      · simp only [trashRemove, List.filter_cons, h2] at *
        simpa [trashLookup, List.find?, h1, h2] using ih

theorem trashLookup_remove_none (tr : TrashFS) (id id2 : String)
    (h : trashLookup tr id = none) :
    trashLookup (trashRemove tr id2) id = none := by
  by_cases he : id = id2
  · subst he; exact trashLookup_remove_self tr id
  · rw [trashLookup_remove_other tr id id2 he]; exact h

theorem trashLookup_set_self (tr : TrashFS) (id : String) (it : ItemDir)
    (h : (trashLookup tr id).isSome = true) :
    trashLookup (trashSet tr id it) id = some it := by
  induction tr with
  | nil => simp [trashLookup] at h
  | cons e tr ih =>
    by_cases he : e.1 == id
    · simp [trashSet, trashLookup, List.find?, he]
    · have h' : (trashLookup tr id).isSome = true := by
        simpa [trashLookup, List.find?, he] using h
      simpa [trashSet, trashLookup, List.find?, he] using ih h'

theorem trashLookup_append_new (tr : TrashFS) (id : String) (it : ItemDir)
    (h : trashLookup tr id = none) :
    trashLookup (tr ++ [(id, it)]) id = some it := by
  induction tr with
  | nil => simp [trashLookup, List.find?]
  | cons e tr ih =>
    by_cases he : e.1 == id
    · simp [trashLookup, List.find?, he] at h
    · have h' : trashLookup tr id = none := by simpa [trashLookup, List.find?, he] using h
      simpa [trashLookup, List.find?, he] using ih h'

theorem mem_trashSet {tr : TrashFS} {id : String} {it : ItemDir} {e : String × ItemDir}
    (h : e ∈ trashSet tr id it) :
    ((e.1 == id) = true ∧ e.2 = it) ∨ ((e.1 == id) = false ∧ e ∈ tr) := by
  obtain ⟨e₀, he₀, hf⟩ := List.mem_map.mp h
  by_cases hk : e₀.1 == id
  · left
    constructor
    · rw [← hf]; simp [hk]
    · rw [← hf]; simp [hk]
  · right
    constructor
    · rw [← hf]; simp [hk]
    · rw [← hf]; simpa [hk] using he₀

theorem mem_trashRemove {tr : TrashFS} {id : String} {e : String × ItemDir}
    (h : e ∈ trashRemove tr id) : e ∈ tr ∧ (e.1 == id) = false := by
  have := List.mem_filter.mp h
  constructor
  · exact this.1
  · simpa using this.2

theorem mem_trashRemove_set {tr : TrashFS} {id : String} {it : ItemDir} {e : String × ItemDir}
    (h : e ∈ trashRemove (trashSet tr id it) id) : e ∈ tr := by
  obtain ⟨hmem, hkey⟩ := mem_trashRemove h
  obtain ⟨e₀, he₀, hf⟩ := List.mem_map.mp hmem
  by_cases hk : e₀.1 == id
  · exfalso
    have : e.1 = e₀.1 := by rw [← hf]; simp [hk]
    rw [this] at hkey
    rw [hkey] at hk
    exact Bool.false_ne_true hk
  · rw [← hf]; simpa [hk] using he₀

/-- C2: `Trash.Move` generates `id = timestamp ++ "_" ++ basename`, and
writes metadata before the rename: on success the item holds exactly the
freshly-written metadata together with the content renamed off the original
path; if the rename fails the whole item directory — its metadata file
included — has been removed and the original path is untouched; in every
outcome a trash with no metadata/content orphans stays orphan-free. -/
theorem trash_move_spec (w : World) (target : Target) (nowFmt : String) (now : Int)
    (o : MoveOracles) (hinv : orphanFree w.trash) :
    (∀ id, (Move w target nowFmt now o).1 = .ok id →
      id = nowFmt ++ "_" ++ pathBase target.path ∧
      ∃ node,
        trashLookup (Move w target nowFmt now o).2.trash id =
          some ⟨some ⟨id, target.path, target.size, now, target.profileName⟩,
                some (node.rename "content")⟩ ∧
        ExtFS.takeEntry w.external target.path =
          (some node, (Move w target nowFmt now o).2.external)) ∧
    ((Move w target nowFmt now o).1 = .error .renameFailed →
      trashLookup (Move w target nowFmt now o).2.trash (nowFmt ++ "_" ++ pathBase target.path)
          = none ∧
      (Move w target nowFmt now o).2.external = w.external) ∧
    orphanFree (Move w target nowFmt now o).2.trash := by
  set id0 := nowFmt ++ "_" ++ pathBase target.path with hid0
  set tr1 := if (trashLookup w.trash id0).isSome then w.trash
             else w.trash ++ [(id0, (⟨none, none⟩ : ItemDir))] with htr1
  have htr1mem : ∀ e ∈ tr1, e ∈ w.trash ∨ e.2 = (⟨none, none⟩ : ItemDir) := by
    intro e he
    rw [htr1] at he
    by_cases hs : (trashLookup w.trash id0).isSome
    · left; simpa [hs] using he
    · simp only [hs, if_false] at he
      rcases List.mem_append.mp he with h | h
      · exact Or.inl h
      · right
        simp only [List.mem_singleton] at h
        rw [h]
  have htr1inv : orphanFree tr1 := by
    intro e he
    rcases htr1mem e he with h | h
    · exact hinv e h
    · rw [h]; rfl
  have htr1some : (trashLookup tr1 id0).isSome = true := by
    rw [htr1]
    cases hs : trashLookup w.trash id0 with
    | some it => simp [hs]
    | none =>
      simp only [hs, Option.isSome_none, Bool.false_eq_true, if_false]
      rw [trashLookup_append_new _ _ _ hs]
      rfl
  set md0 : TrashMetadata := ⟨id0, target.path, target.size, now, target.profileName⟩ with hmd0
  set cur := (trashLookup tr1 id0).getD ⟨none, none⟩ with hcur
  have hfailTrash : ∀ it, orphanFree (trashRemove (trashSet tr1 id0 it) id0) := by
    intro it e he
    exact htr1inv e (mem_trashRemove_set he)
  by_cases hmk : o.mkdirFails
  · have hres : Move w target nowFmt now o = (.error .mkdirFailed, w) := by
      simp [Move, hmk]
    rw [hres]
    exact ⟨fun id h => by simp at h, fun h => by simp at h, hinv⟩
  · by_cases hwr : o.writeFails
    · have hres : Move w target nowFmt now o =
          (.error .writeMetadataFailed, { w with trash := tr1 }) := by
        simp [Move, hmk, hwr, ← hid0, ← htr1]
      rw [hres]
      exact ⟨fun id h => by simp at h, fun h => by simp at h, htr1inv⟩
    · rcases htake : ExtFS.takeEntry w.external target.path with ⟨nodeOpt, ext2⟩
      cases nodeOpt with
      | none =>
        have hres : Move w target nowFmt now o =
            (.error .renameFailed,
              { w with trash := trashRemove (trashSet tr1 id0 ⟨some md0, cur.content⟩) id0 }) := by
          simp [Move, hmk, hwr, ← hid0, htake, ← htr1, ← hmd0, ← hcur]
        rw [hres]
        refine ⟨fun id h => by simp at h, fun _ => ⟨trashLookup_remove_self _ _, rfl⟩, ?_⟩
        exact hfailTrash _
      | some node =>
        by_cases hrf : o.renameFails
        · have hres : Move w target nowFmt now o =
              (.error .renameFailed,
                { w with trash := trashRemove (trashSet tr1 id0 ⟨some md0, cur.content⟩) id0 }) := by
            simp [Move, hmk, hwr, ← hid0, htake, hrf, ← htr1, ← hmd0, ← hcur]
          rw [hres]
          refine ⟨fun id h => by simp at h, fun _ => ⟨trashLookup_remove_self _ _, rfl⟩, ?_⟩
          exact hfailTrash _
        · cases hcc : cur.content with
          | some c =>
            have hres : Move w target nowFmt now o =
                (.error .renameFailed,
                  { w with trash := trashRemove (trashSet tr1 id0 ⟨some md0, some c⟩) id0 }) := by
              simp [Move, hmk, hwr, ← hid0, htake, hrf, ← htr1, ← hmd0, ← hcur, hcc]
            rw [hres]
            refine ⟨fun id h => by simp at h, fun _ => ⟨trashLookup_remove_self _ _, rfl⟩, ?_⟩
            exact hfailTrash _
          | none =>
            have hres : Move w target nowFmt now o =
                (.ok id0,
                  { w with external := ext2,
                           trash := trashSet (trashSet tr1 id0 ⟨some md0, none⟩) id0
                             ⟨some md0, some (node.rename "content")⟩ }) := by
              simp [Move, hmk, hwr, ← hid0, htake, hrf, ← htr1, ← hmd0, ← hcur, hcc]
            have htr2some : (trashLookup (trashSet tr1 id0 ⟨some md0, none⟩) id0).isSome
                = true := by
              rw [trashLookup_set_self tr1 id0 _ htr1some]; rfl
            rw [hres]
            refine ⟨?_, fun h => by simp at h, ?_⟩
            · intro id h
              simp only at h
              cases h
              refine ⟨rfl, node, ?_, ?_⟩
              · exact trashLookup_set_self _ id0 _ htr2some
              · rfl
            · intro e he
              rcases mem_trashSet he with ⟨_, h2⟩ | ⟨hk, h⟩
              · rw [h2]; rfl
              · rcases mem_trashSet h with ⟨hk2, _⟩ | ⟨_, h2⟩
                · rw [hk2] at hk; exact absurd hk (by simp)
                · exact htr1inv e h2

/-! ### Retention-based `Clean` lemmas -/

theorem trashCleanGo_lookup_none (f : String → Bool) :
    ∀ (vs : List (String × Int)) (tr : TrashFS) (errs : List String) (id : String),
      trashLookup tr id = none →
      trashLookup (trashCleanGo f vs tr errs).1 id = none := by
  intro vs
  induction vs with
  | nil => intro tr errs id h; exact h
  | cons v rest ih =>
    intro tr errs id h
    rcases v with ⟨id2, d⟩
    by_cases hf : f id2
    · simp only [trashCleanGo, hf, if_true]
      exact ih tr _ id h
    · simp only [trashCleanGo, hf, Bool.false_eq_true, if_false]
      exact ih _ _ id (trashLookup_remove_none tr id id2 h)

theorem trashCleanGo_removes (f : String → Bool) :
    ∀ (vs : List (String × Int)) (tr : TrashFS) (errs : List String) (id : String) (d : Int),
      (id, d) ∈ vs → f id = false →
      trashLookup (trashCleanGo f vs tr errs).1 id = none := by
  intro vs
  induction vs with
  | nil => intro tr errs id d h; cases h
  | cons v rest ih =>
    intro tr errs id d hmem hf
    rcases v with ⟨id2, d2⟩
    rcases List.mem_cons.mp hmem with hh | ht
    · cases hh
      simp only [trashCleanGo, hf, Bool.false_eq_true, if_false]
      exact trashCleanGo_lookup_none f rest _ _ id (trashLookup_remove_self tr id)
    · by_cases hf2 : f id2
      · simp only [trashCleanGo, hf2, if_true]
        exact ih tr _ id d ht hf
      · simp only [trashCleanGo, hf2, Bool.false_eq_true, if_false]
        exact ih _ _ id d ht hf

theorem trashCleanGo_preserve (f : String → Bool) :
    ∀ (vs : List (String × Int)) (tr : TrashFS) (errs : List String) (id : String),
      (∀ d, (id, d) ∉ vs) →
      trashLookup (trashCleanGo f vs tr errs).1 id = trashLookup tr id := by
  intro vs
  induction vs with
  | nil => intro tr errs id _; rfl
  | cons v rest ih =>
    intro tr errs id hni
    rcases v with ⟨id2, d2⟩
    have hne : id ≠ id2 := by
      intro hc
      exact hni d2 (by rw [hc]; exact List.mem_cons_self _ _)
    have hrest : ∀ d, (id, d) ∉ rest := fun d hd => hni d (List.mem_cons_of_mem _ hd)
    by_cases hf : f id2
    · simp only [trashCleanGo, hf, if_true]
      exact ih tr _ id hrest
    · simp only [trashCleanGo, hf, Bool.false_eq_true, if_false]
      rw [ih _ _ id hrest]
      exact trashLookup_remove_other tr id id2 hne

theorem trashCleanGo_errs (f : String → Bool) :
    ∀ (vs : List (String × Int)) (tr : TrashFS) (errs : List String),
      (trashCleanGo f vs tr errs).2 =
        errs ++ (vs.filter (fun im => f im.1)).map (·.1) := by
  intro vs
  induction vs with
  | nil => intro tr errs; simp [trashCleanGo]
  | cons v rest ih =>
    intro tr errs
    rcases v with ⟨id2, d2⟩
    by_cases hf : f id2
    · simp only [trashCleanGo, hf, if_true, List.filter_cons]
      rw [ih]
      simp [hf]
    · simp only [trashCleanGo, hf, Bool.false_eq_true, if_false, List.filter_cons]
      rw [ih]

/-- A concrete world: one item trashed at instant 5. -/
def wClean : World :=
  ⟨[], [("i", ⟨some ⟨"i", ["x"], 0, 5, "p"⟩, some (FSTree.dir "content" 0 [])⟩)],
    fun _ => true⟩

/-- C3 counterexample: the item was trashed at time T = 5 and
`Clean(retentionPeriod = 0)` runs at time 5 — a time ≥ T — yet the item is
still in the trash afterwards (and no removal failure was reported): the
cutoff comparison `DeletedAt.Before(now)` is strict, so the claim's "at any
time ≥ T removes it" fails at the boundary. -/
theorem trash_clean_boundary_ce :
    (TrashClean wClean 0 5 (fun _ => false)).1 = none ∧
    (trashLookup (TrashClean wClean 0 5 (fun _ => false)).2.trash "i").isSome = true := by
  constructor <;> rfl

/-- C3 (amended): `Clean(retentionPeriod)` removes exactly those items whose
deletion timestamp is strictly older than `now - retentionPeriod` — so an
item trashed at `T` is removed by `Clean(0)` at any time strictly after `T`
(not at `T` itself), and survives `Clean(1 hour)` run immediately — and
per-item removal failures are collected without stopping the remaining
items, the aggregate error being nil exactly when no removal failed. -/
theorem trash_clean_retention_amended (w : World) (retention now : Int)
    (removeFails : String → Bool) (hnd : (w.trash.map (·.1)).Nodup) :
    (∀ e ∈ w.trash, ∀ md, e.2.metadata = some md →
        md.deletedAt < now - retention → removeFails e.1 = false →
        trashLookup (TrashClean w retention now removeFails).2.trash e.1 = none) ∧
    (∀ e ∈ w.trash, ∀ md, e.2.metadata = some md →
        ¬ md.deletedAt < now - retention →
        trashLookup (TrashClean w retention now removeFails).2.trash e.1 =
          trashLookup w.trash e.1) ∧
    (∀ e ∈ w.trash, e.2.metadata = none →
        trashLookup (TrashClean w retention now removeFails).2.trash e.1 =
          trashLookup w.trash e.1) ∧
    ((TrashClean w retention now removeFails).1 = none ↔
      ∀ im ∈ trashVictims w.trash retention now, removeFails im.1 = false) := by
  have hkeyinj : ∀ e ∈ w.trash, ∀ e2 ∈ w.trash, e.1 = e2.1 → e = e2 := by
    intro e he e2 he2 hk
    exact List.inj_on_of_nodup_map hnd he he2 hk
  refine ⟨?_, ?_, ?_, ?_⟩
  · intro e he md hmd hlt hf
    have hv : (e.1, md.deletedAt) ∈ trashVictims w.trash retention now := by
      unfold trashVictims
      refine List.mem_filter.mpr ⟨?_, by simpa using hlt⟩
      exact List.mem_filterMap.mpr ⟨e, he, by rw [hmd]; rfl⟩
    exact trashCleanGo_removes removeFails _ _ _ _ _ hv hf
  · intro e he md hmd hge
    apply trashCleanGo_preserve
    intro d hd
    unfold trashVictims at hd
    obtain ⟨hd1, hd2⟩ := List.mem_filter.mp hd
    obtain ⟨e2, he2, hmap⟩ := List.mem_filterMap.mp hd1
    cases hmd2 : e2.2.metadata with
    | none => rw [hmd2] at hmap; cases hmap
    | some md2 =>
      rw [hmd2] at hmap
      simp only [Option.map_some', Option.some.injEq, Prod.mk.injEq] at hmap
      have hkey : e2.1 = e.1 := hmap.1
      have := hkeyinj e2 he2 e he hkey
      rw [this] at hmd2
      rw [hmd2] at hmd
      cases hmd
      rw [hmap.2] at hge
      exact hge (by simpa using hd2)
  · intro e he hmd
    apply trashCleanGo_preserve
    intro d hd
    unfold trashVictims at hd
    obtain ⟨hd1, _⟩ := List.mem_filter.mp hd
    obtain ⟨e2, he2, hmap⟩ := List.mem_filterMap.mp hd1
    cases hmd2 : e2.2.metadata with
    | none => rw [hmd2] at hmap; cases hmap
    | some md2 =>
      rw [hmd2] at hmap
      simp only [Option.map_some', Option.some.injEq, Prod.mk.injEq] at hmap
      have hkey : e2.1 = e.1 := hmap.1
      have := hkeyinj e2 he2 e he hkey
      rw [this] at hmd2
      rw [hmd2] at hmd
      cases hmd
  · constructor
    · intro h im him
      by_contra hc
      have him2 : im ∈ List.filter (fun im => removeFails im.1)
          (trashVictims w.trash retention now) :=
        List.mem_filter.mpr ⟨him, by simpa using hc⟩
      cases hfl : List.filter (fun im => removeFails im.1)
          (trashVictims w.trash retention now) with
      | nil => rw [hfl] at him2; cases him2
      | cons a l =>
        unfold TrashClean at h
        simp only at h
        rw [trashCleanGo_errs, hfl] at h
        simp at h
    · intro h
      have hfe : List.filter (fun im => removeFails im.1)
          (trashVictims w.trash retention now) = [] :=
        List.filter_eq_nil_iff.mpr (fun im him => by simp [h im him])
      unfold TrashClean
      simp only
      rw [trashCleanGo_errs, hfe]
      rfl

/-! ### Restore lemmas -/

theorem resolve_cons_self (fs : ExtFS) (p : Path) (n : FSTree) :
    ExtFS.resolve ((p, n) :: fs) p = some n := by
  unfold ExtFS.resolve
  rw [List.findSome?_cons]
  have hpre : p.isPrefixOf p = true := List.isPrefixOf_iff_prefix.mpr (List.prefix_refl p)
  simp only [hpre, if_true, List.drop_length, findNode]

theorem statOk_cons_below (fs : ExtFS) (k q : Path) (n : FSTree) (h : q <+: k) :
    ExtFS.statOk ((k, n) :: fs) q = true := by
  unfold ExtFS.statOk
  rw [List.any_cons]
  simp [h]

theorem pathDir_below (p : Path) : pathDir p <+: p := by
  unfold pathDir
  rw [List.dropLast_eq_take]
  exact List.take_prefix _ p

/-- C6: `Trash.Restore(id)` refuses with a conflict error — moving nothing —
when the recorded original path already exists; on success the content has
been renamed back to the original path (whose missing parents now exist) and
the item directory is gone; if the content rename fails, the trash directory
— the item's metadata and content included — is untouched, so the operation
is retriable. -/
theorem trash_restore_spec (w : World) (id : String) (rf : Bool) :
    (∀ md, GetMetadata w id = .ok md → w.external.statOk md.originalPath = true →
      Restore w id rf = (some (.conflict md.originalPath), w)) ∧
    ((Restore w id rf).1 = some .restoreRenameFailed → (Restore w id rf).2.trash = w.trash) ∧
    ((Restore w id rf).1 = none →
      ∃ md node, GetMetadata w id = .ok md ∧
        (trashLookup w.trash id).bind ItemDir.content = some node ∧
        w.external.statOk md.originalPath = false ∧
        ExtFS.resolve (Restore w id rf).2.external md.originalPath =
          some (node.rename (pathBase md.originalPath)) ∧
        (Restore w id rf).2.external.statOk (pathDir md.originalPath) = true ∧
        trashLookup (Restore w id rf).2.trash id = none) := by
  cases hgm : GetMetadata w id with
  | error e =>
    have hres : Restore w id rf = (some e, w) := by
      simp [Restore, hgm]
    refine ⟨?_, ?_, ?_⟩
    · intro md2 hgm2; cases hgm2
    · intro _; rw [hres]
    · intro h; rw [hres] at h; cases h
  | ok md =>
    have hit : ∃ it0, trashLookup w.trash id = some it0 ∧ it0.metadata = some md := by
      unfold GetMetadata at hgm
      split at hgm
      next it heq =>
        split at hgm
        next md0 hmd0 =>
          cases hgm
          exact ⟨it, heq, hmd0⟩
        next hmd0 => cases hgm
      next heq => cases hgm
    obtain ⟨it0, hl, hmd0⟩ := hit
    by_cases hex : w.external.statOk md.originalPath
    · have hres : Restore w id rf = (some (.conflict md.originalPath), w) := by
        simp [Restore, hgm, hex]
      refine ⟨?_, ?_, ?_⟩
      · intro md2 hgm2 _
        cases hgm2
        exact hres
      · intro h; rw [hres] at h; cases h
      · intro h; rw [hres] at h; cases h
    · have hgd : (trashLookup w.trash id).getD ⟨none, none⟩ = it0 := by rw [hl]; rfl
      cases hcc : it0.content with
      | none =>
        have hres : Restore w id rf =
            (some .restoreRenameFailed,
              { w with external := w.external.mkdirAll (pathDir md.originalPath) }) := by
          simp [Restore, hgm, hex, hgd, hcc]
        refine ⟨?_, ?_, ?_⟩
        · intro md2 hgm2 hex2
          cases hgm2
          exact absurd hex2 hex
        · intro _; rw [hres]
        · intro h; rw [hres] at h; cases h
      | some node =>
        by_cases hrf : rf
        · have hres : Restore w id rf =
              (some .restoreRenameFailed,
                { w with external := w.external.mkdirAll (pathDir md.originalPath) }) := by
            simp [Restore, hgm, hex, hgd, hcc, hrf]
          refine ⟨?_, ?_, ?_⟩
          · intro md2 hgm2 hex2
            cases hgm2
            exact absurd hex2 hex
          · intro _; rw [hres]
          · intro h; rw [hres] at h; cases h
        · have hrf2 : rf = false := Bool.eq_false_iff.mpr hrf
          have hres : Restore w id rf =
              ((none : Option TrashErr),
                { w with
                    external := (md.originalPath,
                      node.rename (pathBase md.originalPath)) ::
                        w.external.mkdirAll (pathDir md.originalPath),
                    trash := trashRemove w.trash id }) := by
            simp [Restore, hgm, hex, hgd, hcc, hrf2]
          refine ⟨?_, ?_, ?_⟩
          · intro md2 hgm2 hex2
            cases hgm2
            exact absurd hex2 hex
          · intro h; rw [hres] at h; cases h
          · intro _
            refine ⟨md, node, rfl, ?_, by simpa using hex, ?_, ?_, ?_⟩
            · rw [hl]
              simp [hcc]
            · rw [hres]
              exact resolve_cons_self _ _ _
            · rw [hres]
              exact statOk_cons_below _ _ _ _ (pathDir_below md.originalPath)
            · rw [hres]
              exact trashLookup_remove_self w.trash id

/-! ### Concrete worlds exercising the trash theorems -/

def wMove : World :=
  ⟨[(["a", "node_modules"], FSTree.dir "node_modules" 3 [FSTree.file "x" 7 1])], [],
    fun _ => true⟩

def tMove : Target :=
  ⟨["a", "node_modules"], 7, "Node.js", "Node.js", 3, true⟩

theorem trash_move_spec_witness :
    orphanFree wMove.trash ∧
    (Move wMove tMove "20240101_120000" 99 ⟨false, false, false⟩).1 =
      .ok "20240101_120000_node_modules" ∧
    orphanFree (Move wMove tMove "20240101_120000" 99 ⟨false, false, false⟩).2.trash :=
  ⟨fun e he => absurd he (List.not_mem_nil e), rfl,
   (trash_move_spec wMove tMove "20240101_120000" 99 ⟨false, false, false⟩
     (fun e he => absurd he (List.not_mem_nil e))).2.2⟩

def wRet : World :=
  ⟨[], [("old", ⟨some ⟨"old", ["x"], 0, 0, "p"⟩, some (FSTree.dir "content" 0 [])⟩),
        ("new", ⟨some ⟨"new", ["y"], 0, 10, "p"⟩, some (FSTree.dir "content" 0 [])⟩)],
    fun _ => true⟩

theorem trash_clean_retention_amended_witness :
    (wRet.trash.map (·.1)).Nodup ∧
    trashLookup (TrashClean wRet 0 5 (fun _ => false)).2.trash "old" = none :=
  ⟨by decide,
   (trash_clean_retention_amended wRet 0 5 (fun _ => false) (by decide)).1
     ("old", ⟨some ⟨"old", ["x"], 0, 0, "p"⟩, some (FSTree.dir "content" 0 [])⟩)
     (by simp [wRet]) ⟨"old", ["x"], 0, 0, "p"⟩ rfl (by decide) rfl⟩

def wRes : World :=
  ⟨[], [("i", ⟨some ⟨"i", ["a", "b"], 7, 0, "p"⟩, some (FSTree.file "content" 7 0)⟩)],
    fun _ => true⟩

theorem trash_restore_spec_witness :
    (Restore wRes "i" false).1 = none ∧
    (∃ md node, GetMetadata wRes "i" = .ok md ∧
      (trashLookup wRes.trash "i").bind ItemDir.content = some node ∧
      wRes.external.statOk md.originalPath = false ∧
      ExtFS.resolve (Restore wRes "i" false).2.external md.originalPath =
        some (node.rename (pathBase md.originalPath)) ∧
      (Restore wRes "i" false).2.external.statOk (pathDir md.originalPath) = true ∧
      trashLookup (Restore wRes "i" false).2.trash "i" = none) :=
  ⟨rfl, (trash_restore_spec wRes "i" false).2.2 rfl⟩

/-! ### Cleaner (internal/cleaner)

`Clean` walks the target list sequentially, checking the context before each
target; per-target work is the pre-flight `canDelete` check followed by
either `Trash.Move` or a direct `os.RemoveAll`.  Per-call inputs the Go code
draws from the environment — `time.Now()` for each `Move` and the
rename/write failures — are supplied as index-keyed oracles
(`stamps`/`tnows`/`orc`/`delFails`).  `CleanReport.Duration` (wall-clock
time) is not modelled; no claim mentions it. -/

structure CleanOptions where
  skipConfirmation : Bool
  useTrash : Bool
  concurrency : Int

inductive CleanFailure where
  | notFound
  | statParentFailed
  | permissionDenied
  | moveToTrashFailed (e : TrashErr)
  | deleteFailed
deriving DecidableEq

structure CleanReport where
  totalSize : Int
  filesDeleted : Nat
  errors : List (Target × CleanFailure)
  trashedItems : List String
deriving DecidableEq

inductive CleanTopErr where
  | canceled
deriving DecidableEq

/-- `canDelete(path)`: the path must exist and its parent directory (the Go
code computes `filepath.Dir(path)` in both the file and the directory case)
must stat and be writable; classified errors, no deletion attempted. -/
def canDelete (w : World) (p : Path) : Option CleanFailure :=
  if ¬ w.external.statOk p then some .notFound
  else
    if ¬ w.external.statOk (pathDir p) then some .statParentFailed
    else if ¬ w.parentWritable (pathDir p) then some .permissionDenied
    else none

/-- The target loop of `Clean`: arguments are the remaining targets, the
world, the report so far, the index of the next target (feeding the
per-target oracles) and the cancellation-check counter. -/
def cleanGo (ctx : Ctx) (opts : CleanOptions) (stamps : Nat → String) (tnows : Nat → Int)
    (orc : Nat → MoveOracles) (delFails : Nat → Bool) :
    List Target → World → CleanReport → Nat → Nat → CleanReport × World × Option CleanTopErr
  | [], w, rep, _, _ => (rep, w, none)
  | t :: ts, w, rep, i, n =>
    let n1 := n + 1
    if ctx.done n1 then (rep, w, some .canceled)
    else
      match canDelete w t.path with
      | some e =>
        cleanGo ctx opts stamps tnows orc delFails ts w
          { rep with errors := rep.errors ++ [(t, e)] } (i + 1) n1
      | none =>
        if opts.useTrash then
          match Move w t (stamps i) (tnows i) (orc i) with
          | (.error e, w2) =>
            cleanGo ctx opts stamps tnows orc delFails ts w2
              { rep with errors := rep.errors ++ [(t, .moveToTrashFailed e)] } (i + 1) n1
          | (.ok id, w2) =>
            cleanGo ctx opts stamps tnows orc delFails ts w2
              { rep with trashedItems := rep.trashedItems ++ [id],
                         totalSize := rep.totalSize + t.size,
                         filesDeleted := rep.filesDeleted + 1 } (i + 1) n1
        else
          if delFails i then
            cleanGo ctx opts stamps tnows orc delFails ts w
              { rep with errors := rep.errors ++ [(t, .deleteFailed)] } (i + 1) n1
          else
            cleanGo ctx opts stamps tnows orc delFails ts
              { w with external := w.external.removeAll t.path }
              { rep with totalSize := rep.totalSize + t.size,
                         filesDeleted := rep.filesDeleted + 1 } (i + 1) n1

/-- `Cleaner.Clean(ctx, targets, opts)`: report, final world, top-level
error. -/
def CleanerClean (ctx : Ctx) (w : World) (targets : List Target) (opts : CleanOptions)
    (stamps : Nat → String) (tnows : Nat → Int) (orc : Nat → MoveOracles)
    (delFails : Nat → Bool) : CleanReport × World × Option CleanTopErr :=
  cleanGo ctx opts stamps tnows orc delFails targets w ⟨0, 0, [], []⟩ 0 0

def sumSizes (l : List Target) : Int :=
  (l.map (·.size)).sum

def sumErrSizes (l : List (Target × CleanFailure)) : Int :=
  (l.map (·.1.size)).sum

theorem Ctx.done_none {ctx : Ctx} (h : ctx.cancelAfter = none) (n : Nat) :
    ctx.done n = false := by
  unfold Ctx.done
  rw [h]

theorem sumErrSizes_append_one (l : List (Target × CleanFailure)) (x : Target × CleanFailure) :
    sumErrSizes (l ++ [x]) = sumErrSizes l + x.1.size := by
  simp [sumErrSizes]

theorem sumSizes_cons (t : Target) (ts : List Target) :
    sumSizes (t :: ts) = t.size + sumSizes ts := by
  simp [sumSizes]

theorem cleanGo_invariants (ctx : Ctx) (opts : CleanOptions) (stamps : Nat → String)
    (tnows : Nat → Int) (orc : Nat → MoveOracles) (delFails : Nat → Bool)
    (hctx : ctx.cancelAfter = none) :
    ∀ (ts : List Target) (w : World) (rep : CleanReport) (i n : Nat),
      (cleanGo ctx opts stamps tnows orc delFails ts w rep i n).2.2 = none ∧
      (cleanGo ctx opts stamps tnows orc delFails ts w rep i n).1.filesDeleted +
          (cleanGo ctx opts stamps tnows orc delFails ts w rep i n).1.errors.length =
        rep.filesDeleted + rep.errors.length + ts.length ∧
      (cleanGo ctx opts stamps tnows orc delFails ts w rep i n).1.totalSize +
          sumErrSizes (cleanGo ctx opts stamps tnows orc delFails ts w rep i n).1.errors =
        rep.totalSize + sumErrSizes rep.errors + sumSizes ts ∧
      (opts.useTrash = true →
        (cleanGo ctx opts stamps tnows orc delFails ts w rep i n).1.trashedItems.length +
            rep.filesDeleted =
          (cleanGo ctx opts stamps tnows orc delFails ts w rep i n).1.filesDeleted +
            rep.trashedItems.length) := by
  intro ts
  induction ts with
  | nil =>
    intro w rep i n
    refine ⟨rfl, by simp [cleanGo, sumSizes], by simp [cleanGo, sumSizes], fun _ => by
      simp only [cleanGo]
      omega⟩
  | cons t ts ih =>
    intro w rep i n
    simp only [cleanGo, Ctx.done_none hctx, Bool.false_eq_true, if_false]
    cases hcd : canDelete w t.path with
    | some e =>
      obtain ⟨h1, h2, h3, h4⟩ :=
        ih w { rep with errors := rep.errors ++ [(t, e)] } (i + 1) (n + 1)
      refine ⟨h1, ?_, ?_, ?_⟩
      · rw [h2]; simp; omega
      · rw [h3]; rw [sumErrSizes_append_one, sumSizes_cons]; simp; omega
      · intro hut
        have := h4 hut
        simpa using this
    | none =>
      by_cases hut : opts.useTrash
      · simp only [hut, if_true]
        split
        next e w2 hmv =>
          obtain ⟨h1, h2, h3, h4⟩ :=
            ih w2 { rep with errors := rep.errors ++ [(t, .moveToTrashFailed e)] } (i + 1) (n + 1)
          refine ⟨h1, ?_, ?_, ?_⟩
          · rw [h2]; simp; omega
          · rw [h3]; rw [sumErrSizes_append_one, sumSizes_cons]; simp; omega
          · intro _
            have := h4 hut
            simpa using this
        next id w2 hmv =>
          obtain ⟨h1, h2, h3, h4⟩ :=
            ih w2 { rep with trashedItems := rep.trashedItems ++ [id],
                             totalSize := rep.totalSize + t.size,
                             filesDeleted := rep.filesDeleted + 1 } (i + 1) (n + 1)
          refine ⟨h1, ?_, ?_, ?_⟩
          · rw [h2]; simp; omega
          · rw [h3]; rw [sumSizes_cons]; simp; omega
          · intro _
            have := h4 hut
            simp at this
            omega
      · simp only [hut, Bool.false_eq_true, if_false]
        by_cases hdf : delFails i
        · simp only [hdf, if_true]
          obtain ⟨h1, h2, h3, h4⟩ :=
            ih w { rep with errors := rep.errors ++ [(t, .deleteFailed)] } (i + 1) (n + 1)
          refine ⟨h1, ?_, ?_, ?_⟩
          · rw [h2]; simp; omega
          · rw [h3]; rw [sumErrSizes_append_one, sumSizes_cons]; simp; omega
          · intro hut2
            exact hut2.elim
        · simp only [hdf, Bool.false_eq_true, if_false]
          obtain ⟨h1, h2, h3, h4⟩ :=
            ih { w with external := w.external.removeAll t.path }
              { rep with totalSize := rep.totalSize + t.size,
                         filesDeleted := rep.filesDeleted + 1 } (i + 1) (n + 1)
          refine ⟨h1, ?_, ?_, ?_⟩
          · rw [h2]; simp; omega
          · rw [h3]; rw [sumSizes_cons]; simp; omega
          · intro hut2
            exact hut2.elim

theorem cleanerClean_invariants_aux (ctx : Ctx) (w : World) (targets : List Target)
    (opts : CleanOptions) (stamps : Nat → String) (tnows : Nat → Int)
    (orc : Nat → MoveOracles) (delFails : Nat → Bool) (hctx : ctx.cancelAfter = none) :
    (CleanerClean ctx w targets opts stamps tnows orc delFails).2.2 = none ∧
    (CleanerClean ctx w targets opts stamps tnows orc delFails).1.filesDeleted +
        (CleanerClean ctx w targets opts stamps tnows orc delFails).1.errors.length =
      targets.length ∧
    (CleanerClean ctx w targets opts stamps tnows orc delFails).1.totalSize +
        sumErrSizes (CleanerClean ctx w targets opts stamps tnows orc delFails).1.errors =
      sumSizes targets ∧
    (opts.useTrash = true →
      (CleanerClean ctx w targets opts stamps tnows orc delFails).1.trashedItems.length =
        (CleanerClean ctx w targets opts stamps tnows orc delFails).1.filesDeleted) := by
  obtain ⟨h1, h2, h3, h4⟩ :=
    cleanGo_invariants ctx opts stamps tnows orc delFails hctx targets w ⟨0, 0, [], []⟩ 0 0
  refine ⟨h1, ?_, ?_, ?_⟩
  · simpa [CleanerClean] using h2
  · simpa [CleanerClean, sumErrSizes] using h3
  · intro hut
    have := h4 hut
    simpa [CleanerClean] using this

/-- C10: a `Cleaner.Clean` run that completes without cancellation accounts
for every input target exactly once: `FilesDeleted` plus the number of error
entries equals the number of targets, `TotalSize` equals the total size of
the input minus the sizes of the targets listed in `Errors`, and with
`UseTrash` enabled the number of trashed-item ids equals `FilesDeleted`. -/
theorem cleaner_clean_report_invariants (ctx : Ctx) (w : World) (targets : List Target)
    (opts : CleanOptions) (stamps : Nat → String) (tnows : Nat → Int)
    (orc : Nat → MoveOracles) (delFails : Nat → Bool) (hctx : ctx.cancelAfter = none) :
    (CleanerClean ctx w targets opts stamps tnows orc delFails).2.2 = none ∧
    (CleanerClean ctx w targets opts stamps tnows orc delFails).1.filesDeleted +
        (CleanerClean ctx w targets opts stamps tnows orc delFails).1.errors.length =
      targets.length ∧
    (CleanerClean ctx w targets opts stamps tnows orc delFails).1.totalSize +
        sumErrSizes (CleanerClean ctx w targets opts stamps tnows orc delFails).1.errors =
      sumSizes targets ∧
    (opts.useTrash = true →
      (CleanerClean ctx w targets opts stamps tnows orc delFails).1.trashedItems.length =
        (CleanerClean ctx w targets opts stamps tnows orc delFails).1.filesDeleted) :=
  cleanerClean_invariants_aux ctx w targets opts stamps tnows orc delFails hctx

/-! ### Per-target isolation: a path that is missing at the start stays
missing (the cleaner only removes filesystem objects), so its pre-flight
check fails and the target lands in the error list while processing
continues. -/

theorem statOk_filter_false (fs : ExtFS) (q : Path × FSTree → Bool) (p : Path)
    (h : fs.statOk p = false) : ExtFS.statOk (fs.filter q) p = false := by
  unfold ExtFS.statOk at *
  rw [List.any_eq_false] at *
  intro e he
  exact h e (List.mem_of_mem_filter he)

theorem Move_external_cases (w : World) (t : Target) (nf : String) (nw : Int)
    (o : MoveOracles) :
    (Move w t nf nw o).2.external = w.external ∨
    (Move w t nf nw o).2.external = w.external.filter (fun e2 => !(e2.1 == t.path)) := by
  unfold Move
  by_cases hmk : o.mkdirFails
  · simp [hmk]
  · by_cases hwr : o.writeFails
    · simp [hmk, hwr]
    · simp only [hmk, hwr, Bool.false_eq_true, if_false]
      rcases htake : ExtFS.takeEntry w.external t.path with ⟨nodeOpt, ext2⟩
      have hext2 : ext2 = w.external ∨
          ext2 = w.external.filter (fun e2 => !(e2.1 == t.path)) := by
        unfold ExtFS.takeEntry at htake
        cases hf : w.external.find? (fun e => e.1 == t.path) with
        | some e =>
          rw [hf] at htake
          right
          exact (Prod.mk.injEq .. ▸ htake).2.symm
        | none =>
          rw [hf] at htake
          left
          exact (Prod.mk.injEq .. ▸ htake).2.symm
      cases nodeOpt with
      | none => simp
      | some node =>
        by_cases hrf : o.renameFails
        · simp [hrf]
        · simp only [hrf, Bool.false_eq_true, if_false]
          cases hcc : ((trashLookup (if (trashLookup w.trash
              (nf ++ "_" ++ pathBase t.path)).isSome then w.trash
              else w.trash ++ [(nf ++ "_" ++ pathBase t.path, ⟨none, none⟩)])
              (nf ++ "_" ++ pathBase t.path)).getD ⟨none, none⟩).content with
          | some c => simp [hcc]
          | none => simpa [hcc] using hext2

theorem cleanGo_errors_pre (ctx : Ctx) (opts : CleanOptions) (stamps : Nat → String)
    (tnows : Nat → Int) (orc : Nat → MoveOracles) (delFails : Nat → Bool) :
    ∀ (ts : List Target) (w : World) (rep : CleanReport) (i n : Nat),
      ∃ l, (cleanGo ctx opts stamps tnows orc delFails ts w rep i n).1.errors =
        rep.errors ++ l := by
  intro ts
  induction ts with
  | nil => intro w rep i n; exact ⟨[], by simp [cleanGo]⟩
  | cons t ts ih =>
    intro w rep i n
    simp only [cleanGo]
    by_cases hdone : ctx.done (n + 1)
    · exact ⟨[], by simp [hdone]⟩
    · simp only [hdone, Bool.false_eq_true, if_false]
      cases hcd : canDelete w t.path with
      | some e =>
        obtain ⟨l, hl⟩ := ih w { rep with errors := rep.errors ++ [(t, e)] } (i + 1) (n + 1)
        exact ⟨(t, e) :: l, by rw [hl]; simp⟩
      | none =>
        by_cases hut : opts.useTrash
        · simp only [hut, if_true]
          split
          next e w2 hmv =>
            obtain ⟨l, hl⟩ :=
              ih w2 { rep with errors := rep.errors ++ [(t, .moveToTrashFailed e)] }
                (i + 1) (n + 1)
            exact ⟨(t, .moveToTrashFailed e) :: l, by rw [hl]; simp⟩
          next id w2 hmv =>
            obtain ⟨l, hl⟩ :=
              ih w2 { rep with trashedItems := rep.trashedItems ++ [id],
                               totalSize := rep.totalSize + t.size,
                               filesDeleted := rep.filesDeleted + 1 } (i + 1) (n + 1)
            exact ⟨l, hl⟩
        · simp only [hut, Bool.false_eq_true, if_false]
          by_cases hdf : delFails i
          · simp only [hdf, if_true]
            obtain ⟨l, hl⟩ :=
              ih w { rep with errors := rep.errors ++ [(t, .deleteFailed)] } (i + 1) (n + 1)
            exact ⟨(t, .deleteFailed) :: l, by rw [hl]; simp⟩
          · simp only [hdf, Bool.false_eq_true, if_false]
            obtain ⟨l, hl⟩ :=
              ih { w with external := w.external.removeAll t.path }
                { rep with totalSize := rep.totalSize + t.size,
                           filesDeleted := rep.filesDeleted + 1 } (i + 1) (n + 1)
            exact ⟨l, hl⟩

theorem cleanGo_notFound (ctx : Ctx) (opts : CleanOptions) (stamps : Nat → String)
    (tnows : Nat → Int) (orc : Nat → MoveOracles) (delFails : Nat → Bool)
    (hctx : ctx.cancelAfter = none) :
    ∀ (ts : List Target) (w : World) (rep : CleanReport) (i n : Nat) (t : Target),
      t ∈ ts → w.external.statOk t.path = false →
      (t, CleanFailure.notFound) ∈
        (cleanGo ctx opts stamps tnows orc delFails ts w rep i n).1.errors := by
  intro ts
  induction ts with
  | nil => intro w rep i n t h; cases h
  | cons t0 ts ih =>
    intro w rep i n t hmem hso
    simp only [cleanGo, Ctx.done_none hctx, Bool.false_eq_true, if_false]
    rcases List.mem_cons.mp hmem with hh | ht
    · subst hh
      have hcd : canDelete w t.path = some .notFound := by
        unfold canDelete
        simp [hso]
      simp only [hcd]
      obtain ⟨l, hl⟩ := cleanGo_errors_pre ctx opts stamps tnows orc delFails ts w
        { rep with errors := rep.errors ++ [(t, .notFound)] } (i + 1) (n + 1)
      rw [hl]
      simp
    · cases hcd : canDelete w t0.path with
      | some e => exact ih w _ (i + 1) (n + 1) t ht hso
      | none =>
        by_cases hut : opts.useTrash
        · simp only [hut, if_true]
          split
          next e w2 hmv =>
            have hw2 : w2 = (Move w t0 (stamps i) (tnows i) (orc i)).2 := by rw [hmv]
            have hso2 : w2.external.statOk t.path = false := by
              rw [hw2]
              rcases Move_external_cases w t0 (stamps i) (tnows i) (orc i) with h | h
              · rw [h]; exact hso
              · rw [h]; exact statOk_filter_false _ _ _ hso
            exact ih w2 _ (i + 1) (n + 1) t ht hso2
          next id w2 hmv =>
            have hw2 : w2 = (Move w t0 (stamps i) (tnows i) (orc i)).2 := by rw [hmv]
            have hso2 : w2.external.statOk t.path = false := by
              rw [hw2]
              rcases Move_external_cases w t0 (stamps i) (tnows i) (orc i) with h | h
              · rw [h]; exact hso
              · rw [h]; exact statOk_filter_false _ _ _ hso
            exact ih w2 _ (i + 1) (n + 1) t ht hso2
        · simp only [hut, Bool.false_eq_true, if_false]
          by_cases hdf : delFails i
          · simp only [hdf, if_true]
            exact ih w _ (i + 1) (n + 1) t ht hso
          · simp only [hdf, Bool.false_eq_true, if_false]
            exact ih _ _ (i + 1) (n + 1) t ht (statOk_filter_false _ _ _ hso)

/-- C5: in `Cleaner.Clean`, per-target failures are isolated: without
cancellation the top-level error is nil whatever happens to individual
targets, every target whose path is already gone when the run starts is
reported in the error list as a not-found pre-flight failure, the rest are
still processed (every target ends up as a success or an error entry), and
the aggregate size equals the total size of the targets minus the sizes of
the targets listed in `Errors`. -/
theorem cleaner_clean_isolates_failures (ctx : Ctx) (w : World) (targets : List Target)
    (opts : CleanOptions) (stamps : Nat → String) (tnows : Nat → Int)
    (orc : Nat → MoveOracles) (delFails : Nat → Bool) (hctx : ctx.cancelAfter = none) :
    (CleanerClean ctx w targets opts stamps tnows orc delFails).2.2 = none ∧
    (∀ t ∈ targets, w.external.statOk t.path = false →
      (t, CleanFailure.notFound) ∈
        (CleanerClean ctx w targets opts stamps tnows orc delFails).1.errors) ∧
    (CleanerClean ctx w targets opts stamps tnows orc delFails).1.filesDeleted +
        (CleanerClean ctx w targets opts stamps tnows orc delFails).1.errors.length =
      targets.length ∧
    (CleanerClean ctx w targets opts stamps tnows orc delFails).1.totalSize +
        sumErrSizes (CleanerClean ctx w targets opts stamps tnows orc delFails).1.errors =
      sumSizes targets := by
  obtain ⟨h1, h2, h3, _⟩ :=
    cleanerClean_invariants_aux ctx w targets opts stamps tnows orc delFails hctx
  refine ⟨h1, ?_, h2, h3⟩
  intro t ht hso
  exact cleanGo_notFound ctx opts stamps tnows orc delFails hctx targets w ⟨0, 0, [], []⟩
    0 0 t ht hso

/-! ### Concrete cleaner runs -/

def wCln : World :=
  ⟨[(["a"], FSTree.dir "a" 0 [FSTree.file "f" 5 0]), (["b"], FSTree.file "b" 3 0)], [],
    fun _ => true⟩

def tA : Target := ⟨["a"], 5, "d", "d", 0, true⟩

def tM : Target := ⟨["m"], 2, "d", "d", 0, false⟩

def tB : Target := ⟨["b"], 3, "d", "d", 0, false⟩

def optsDirect : CleanOptions := ⟨true, false, 4⟩

def optsTrash : CleanOptions := ⟨true, true, 4⟩

theorem cleaner_clean_isolates_failures_witness :
    (Ctx.mk none).cancelAfter = none ∧
    (tM, CleanFailure.notFound) ∈
      (CleanerClean ⟨none⟩ wCln [tA, tM, tB] optsDirect (fun _ => "s") (fun _ => 0)
        (fun _ => ⟨false, false, false⟩) (fun _ => false)).1.errors :=
  ⟨rfl,
   (cleaner_clean_isolates_failures ⟨none⟩ wCln [tA, tM, tB] optsDirect (fun _ => "s")
      (fun _ => 0) (fun _ => ⟨false, false, false⟩) (fun _ => false) rfl).2.1 tM
     (by decide) rfl⟩

theorem cleaner_clean_report_invariants_witness :
    (Ctx.mk none).cancelAfter = none ∧
    (CleanerClean ⟨none⟩ wCln [tA, tM, tB] optsTrash (fun _ => "s") (fun _ => 0)
        (fun _ => ⟨false, false, false⟩) (fun _ => false)).1.filesDeleted +
      (CleanerClean ⟨none⟩ wCln [tA, tM, tB] optsTrash (fun _ => "s") (fun _ => 0)
        (fun _ => ⟨false, false, false⟩) (fun _ => false)).1.errors.length =
      ([tA, tM, tB] : List Target).length :=
  ⟨rfl,
   (cleaner_clean_report_invariants ⟨none⟩ wCln [tA, tM, tB] optsTrash (fun _ => "s")
      (fun _ => 0) (fun _ => ⟨false, false, false⟩) (fun _ => false) rfl).2.1⟩

/-! ### The match cache (claim C7) -/

theorem cacheLookup_cons_self (c : List (Path × Option Nat)) (p : Path) (v : Option Nat) :
    cacheLookup ((p, v) :: c) p = some v := by
  simp [cacheLookup, List.find?]

/-- C7: for a directory `d` (it stats successfully and is a directory), a
second `MatchProfile(d)` with no intervening `ClearCache()` performs zero
filesystem accesses and returns the same result — the same profile pointer
(index) on a match, and the cached nil on a no-match — leaving the loader
unchanged. -/
theorem matchProfile_cached_second_call (l : Loader) (fs : ExtFS) (d : Path) (t : FSTree)
    (hres : fs.resolve d = some t) (hdir : t.isDir = true) :
    (l.MatchProfileS fs d).2.1.MatchProfileS fs d =
      ((l.MatchProfileS fs d).1, (l.MatchProfileS fs d).2.1, 0) := by
  cases hc : cacheLookup l.matchCache d with
  | some cached =>
    simp [Loader.MatchProfileS, hc]
  | none =>
    have h1 : l.MatchProfileS fs d =
        (.ok (matchLoop t l.profiles.enum).1,
         { l with matchCache := (d, (matchLoop t l.profiles.enum).1) :: l.matchCache },
         1 + (matchLoop t l.profiles.enum).2) := by
      simp [Loader.MatchProfileS, hc, hres, hdir]
    rw [h1]
    simp [Loader.MatchProfileS, cacheLookup_cons_self]

def nodeProfile : Profile :=
  ⟨"Node.js", "1.0.0", ["node_modules", "dist"], ["package.json"], "Node.js projects", true⟩

def loaderC7 : Loader := ⟨[nodeProfile], []⟩

def fsC7 : ExtFS :=
  [(["proj"], FSTree.dir "proj" 0 [FSTree.file "package.json" 2 0])]

theorem matchProfile_cached_second_call_witness :
    ExtFS.resolve fsC7 ["proj"] =
      some (FSTree.dir "proj" 0 [FSTree.file "package.json" 2 0]) ∧
    (FSTree.dir "proj" 0 [FSTree.file "package.json" 2 0]).isDir = true ∧
    (loaderC7.MatchProfileS fsC7 ["proj"]).2.1.MatchProfileS fsC7 ["proj"] =
      ((loaderC7.MatchProfileS fsC7 ["proj"]).1,
       (loaderC7.MatchProfileS fsC7 ["proj"]).2.1, 0) :=
  ⟨rfl, rfl,
   matchProfile_cached_second_call loaderC7 fsC7 ["proj"]
     (FSTree.dir "proj" 0 [FSTree.file "package.json" 2 0]) rfl rfl⟩

/-! ### Scanner (internal/scanner)

`scanPath` first tries to emit the scan root itself (its own basename against
its own profile's patterns), then `filepath.WalkDir`s the tree: per entry it
checks the context, the depth limit, hidden names and the ignore list; for a
directory it matches a profile against the parent directory first, falling
back to the directory itself, and on a pattern hit emits a target and prunes
the subtree (`fs.SkipDir`).  During one scan the snapshot is fixed, so the
cached `MatchProfile` agrees with the pure `matchProfilePure` used here.  A
cancelled context makes the walk callback return `ctx.Err()`; `scanPath`
converts exactly that error back into a nil error — the targets gathered so
far are returned — and the `Scan` root loop surfaces `ctx.Err()` at its next
iteration.  No plugin registry is modelled (`NewScanner` sets it to nil).
The walk functions thread the check counter and return an abort flag. -/

structure ScanOptions where
  maxDepth : Nat
  includeHidden : Bool
  ignorePaths : List String
  dryRun : Bool
  concurrency : Int

def isHidden (name : String) : Bool :=
  match name.toList with
  | '.' :: _ => true
  | _ => false

def shouldIgnore (p : String) (ignores : List String) : Bool :=
  ignores.any (fun ig =>
    p == ig || List.isPrefixOf (ig ++ "/").toList p.toList || goMatchStr ig p)

def mkTarget (p : Path) (node : FSTree) (pr : Profile) : Target :=
  ⟨p, 0, pr.name, pr.name, node.mtime, node.isDir⟩

/-- The walker's profile choice for a directory entry: the parent directory
first, the directory itself as the fallback. -/
def profileFor (P : List Profile) (parentNode node : FSTree) : Option Profile :=
  match matchProfilePure P parentNode with
  | some p => some p
  | none => matchProfilePure P node

mutual

/-- One `WalkDir` callback on the entry `node` (child of `parentNode`, at
relative depth `d`, absolute path `parentAbs ++ [node.name]`), followed — for
an undecided directory — by the walk of its children.  Returns the targets
emitted, whether the walk was aborted by cancellation, and the new check
count. -/
def walkNodeC (P : List Profile) (opts : ScanOptions) (ctx : Ctx) (parentNode : FSTree)
    (parentAbs : Path) (d : Nat) (node : FSTree) (n : Nat) : List Target × Bool × Nat :=
  if ctx.done (n + 1) then ([], true, n + 1)
  else
    let abs := parentAbs ++ [node.name]
    if decide (opts.maxDepth > 0) && decide (opts.maxDepth < d) then ([], false, n + 1)
    else if !opts.includeHidden && isHidden node.name then ([], false, n + 1)
    else if shouldIgnore (pathToString abs) opts.ignorePaths then ([], false, n + 1)
    else
      match node with
      | .file _ _ _ => ([], false, n + 1)
      | .symlink _ _ => ([], false, n + 1)
      | .dir nm mt cs =>
        match profileFor P parentNode (FSTree.dir nm mt cs) with
        | some p =>
          if MatchesPattern nm p then ([mkTarget abs (FSTree.dir nm mt cs) p], false, n + 1)
          else walkNodesC P opts ctx (FSTree.dir nm mt cs) abs (d + 1) cs (n + 1)
        | none => walkNodesC P opts ctx (FSTree.dir nm mt cs) abs (d + 1) cs (n + 1)

def walkNodesC (P : List Profile) (opts : ScanOptions) (ctx : Ctx) (parentNode : FSTree)
    (parentAbs : Path) (d : Nat) : List FSTree → Nat → List Target × Bool × Nat
  | [], n => ([], false, n)
  | c :: cs, n =>
    match walkNodeC P opts ctx parentNode parentAbs d c n with
    | (ts, true, n1) => (ts, true, n1)
    | (ts, false, n1) =>
      match walkNodesC P opts ctx parentNode parentAbs d cs n1 with
      | (ts2, ab, n2) => (ts ++ ts2, ab, n2)

end

/-- `scanPath(ctx, rootPath, opts)`: the root's own match-and-emit, then the
walk.  The walk's first callback is the root itself (one context check; the
root is otherwise skipped).  A missing root makes `WalkDir` report one
callback error, which is logged and swallowed.  Cancellation is surfaced as
`context.Canceled` from the walk, which `scanPath` swallows, returning the
partial targets with a nil error. -/
def scanPathC (P : List Profile) (opts : ScanOptions) (ctx : Ctx) (fs : ExtFS)
    (rootPath : Path) (n : Nat) : List Target × Nat :=
  match fs.resolve rootPath with
  | none => ([], n + 1)
  | some root =>
    let rootTs := match matchProfilePure P root with
      | some pr => if MatchesPattern (pathBase rootPath) pr then [mkTarget rootPath root pr]
                   else []
      | none => []
    if ctx.done (n + 1) then (rootTs, n + 1)
    else
      match root with
      | .dir _ _ cs =>
        match walkNodesC P opts ctx root rootPath 1 cs (n + 1) with
        | (ts, _, n2) => (rootTs ++ ts, n2)
      | _ => (rootTs, n + 1)

inductive ScanErr where
  | canceled
  | calcFailed (e : CalcErr)
deriving DecidableEq

/-- The root loop of `Scan`: one context check per root, then `scanPath`;
the targets of every processed root accumulate. -/
def scanRootsC (P : List Profile) (opts : ScanOptions) (ctx : Ctx) (fs : ExtFS) :
    List Path → List Target → Nat → List Target × Option ScanErr × Nat
  | [], acc, n => (acc, none, n)
  | p :: ps, acc, n =>
    if ctx.done (n + 1) then (acc, some .canceled, n + 1)
    else
      match scanPathC P opts ctx fs p (n + 1) with
      | (ts, n2) => scanRootsC P opts ctx fs ps (acc ++ ts) n2

/-- `Scan(ctx, paths, opts)`: walk every root, then — plugins being absent —
hand the collected targets to the size calculator; its error (the context's
own on cancellation, the aggregate otherwise) is wrapped as the sizing
failure. -/
def ScanC (P : List Profile) (opts : ScanOptions) (ctx : Ctx) (fs : ExtFS)
    (paths : List Path) : List Target × Option ScanErr :=
  match scanRootsC P opts ctx fs paths [] 0 with
  | (acc, some e, _) => (acc, some e)
  | (acc, none, n) =>
    if acc.isEmpty then (acc, none)
    else
      match CalculateTargetsC ctx fs acc n with
      | (res, some ce, _) => (res, some (.calcFailed ce))
      | (res, none, _) => (res, none)

/-! ### Pruning: every walk-emitted target lies strictly below the entry at
which the walk stands, and pruning (`fs.SkipDir` on a hit) keeps
walk-emitted targets pairwise non-nested. -/

mutual

theorem walkNodeC_below (P : List Profile) (opts : ScanOptions) (ctx : Ctx)
    (parentNode : FSTree) (parentAbs : Path) (d : Nat) (node : FSTree) (n : Nat) :
    ∀ t ∈ (walkNodeC P opts ctx parentNode parentAbs d node n).1,
      parentAbs ++ [node.name] <+: t.path := by
  intro t ht
  unfold walkNodeC at ht
  by_cases h1 : ctx.done (n + 1) <;> simp only [h1, if_true, Bool.false_eq_true, if_false] at ht
  · simp at ht
  · by_cases h2 : (decide (opts.maxDepth > 0) && decide (opts.maxDepth < d)) = true <;>
      simp only [h2, if_true, Bool.false_eq_true, if_false] at ht
    · simp at ht
    · by_cases h3 : (!opts.includeHidden && isHidden node.name) = true <;>
        simp only [h3, if_true, Bool.false_eq_true, if_false] at ht
      · simp at ht
      · by_cases h4 : shouldIgnore (pathToString (parentAbs ++ [node.name]))
            opts.ignorePaths = true <;>
          simp only [h4, if_true, Bool.false_eq_true, if_false] at ht
        · simp at ht
        · cases node with
          | file nm sz mt => simp at ht
          | symlink nm mt => simp at ht
          | dir nm mt cs =>
            simp only [FSTree.name] at ht ⊢
            cases hpr : profileFor P parentNode (FSTree.dir nm mt cs) with
            | some p =>
              rw [hpr] at ht
              by_cases h5 : MatchesPattern nm p = true <;>
                simp only [h5, if_true, Bool.false_eq_true, if_false] at ht
              · simp only [List.mem_singleton] at ht
                rw [ht]
                exact List.prefix_refl _
              · have := walkNodesC_below P opts ctx (FSTree.dir nm mt cs)
                  (parentAbs ++ [nm]) (d + 1) cs (n + 1) t ht
                obtain ⟨c, _, hc⟩ := this
                exact List.IsPrefix.trans (List.prefix_append _ _) hc
            | none =>
              rw [hpr] at ht
              have := walkNodesC_below P opts ctx (FSTree.dir nm mt cs)
                (parentAbs ++ [nm]) (d + 1) cs (n + 1) t ht
              obtain ⟨c, _, hc⟩ := this
              exact List.IsPrefix.trans (List.prefix_append _ _) hc

theorem walkNodesC_below (P : List Profile) (opts : ScanOptions) (ctx : Ctx)
    (parentNode : FSTree) (parentAbs : Path) (d : Nat) (cs : List FSTree) (n : Nat) :
    ∀ t ∈ (walkNodesC P opts ctx parentNode parentAbs d cs n).1,
      ∃ c ∈ cs, parentAbs ++ [c.name] <+: t.path := by
  intro t ht
  match cs with
  | [] => simp [walkNodesC] at ht
  | c :: cs2 =>
    rw [walkNodesC] at ht
    rcases h1 : walkNodeC P opts ctx parentNode parentAbs d c n with ⟨ts1, ab1, n1⟩
    rw [h1] at ht
    cases ab1 with
    | true =>
      simp only at ht
      have := walkNodeC_below P opts ctx parentNode parentAbs d c n t (by rw [h1]; exact ht)
      exact ⟨c, List.mem_cons_self _ _, this⟩
    | false =>
      simp only at ht
      rcases h2 : walkNodesC P opts ctx parentNode parentAbs d cs2 n1 with ⟨ts2, ab2, n2⟩
      rw [h2] at ht
      simp only at ht
      rcases List.mem_append.mp ht with hl | hr
      · have := walkNodeC_below P opts ctx parentNode parentAbs d c n t
          (by rw [h1]; exact hl)
        exact ⟨c, List.mem_cons_self _ _, this⟩
      · have := walkNodesC_below P opts ctx parentNode parentAbs d cs2 n1 t
          (by rw [h2]; exact hr)
        obtain ⟨c2, hc2, hpre⟩ := this
        exact ⟨c2, List.mem_cons_of_mem _ hc2, hpre⟩

end

theorem prefix_div {a p q : Path} {x y : String} (ha : a ++ [x] <+: p)
    (hb : a ++ [y] <+: q) (hxy : x ≠ y) (hpq : p <+: q) : False := by
  have h1 : a ++ [x] <+: q := ha.trans hpq
  have hlen : (a ++ [x]).length ≤ (a ++ [y]).length := by simp
  have h2 : a ++ [x] <+: a ++ [y] := List.prefix_of_prefix_length_le h1 hb hlen
  have h3 : a ++ [x] = a ++ [y] := h2.eq_of_length (by simp)
  have h4 : [x] = [y] := by
    have := List.append_cancel_left h3
    exact this
  exact hxy (List.singleton_injective h4)

theorem wfb_of_mem_wfbList {cs : List FSTree} (h : wfbList cs = true) {c : FSTree}
    (hc : c ∈ cs) : c.wfb = true := by
  induction cs with
  | nil => cases hc
  | cons a cs ih =>
    rw [wfbList, Bool.and_eq_true] at h
    rcases List.mem_cons.mp hc with hh | ht
    · rw [hh]; exact h.1
    · exact ih h.2 ht

theorem not_mem_of_contains_false {ns : List String} {x : String}
    (h : ns.contains x = false) : x ∉ ns := by
  intro hx
  simp at h
  exact h hx

mutual

theorem walkNodeC_pairwise (P : List Profile) (opts : ScanOptions) (ctx : Ctx)
    (parentNode : FSTree) (parentAbs : Path) (d : Nat) (node : FSTree) (n : Nat)
    (hwf : node.wfb = true) :
    ∀ t1 ∈ (walkNodeC P opts ctx parentNode parentAbs d node n).1,
      ∀ t2 ∈ (walkNodeC P opts ctx parentNode parentAbs d node n).1,
        t1.path <+: t2.path → t1.path = t2.path := by
  intro t1 ht1 t2 ht2 hp
  unfold walkNodeC at ht1 ht2
  by_cases h1 : ctx.done (n + 1) <;>
    simp only [h1, if_true, Bool.false_eq_true, if_false] at ht1 ht2
  · simp at ht1
  · by_cases h2 : (decide (opts.maxDepth > 0) && decide (opts.maxDepth < d)) = true <;>
      simp only [h2, if_true, Bool.false_eq_true, if_false] at ht1 ht2
    · simp at ht1
    · by_cases h3 : (!opts.includeHidden && isHidden node.name) = true <;>
        simp only [h3, if_true, Bool.false_eq_true, if_false] at ht1 ht2
      · simp at ht1
      · by_cases h4 : shouldIgnore (pathToString (parentAbs ++ [node.name]))
            opts.ignorePaths = true <;>
          simp only [h4, if_true, Bool.false_eq_true, if_false] at ht1 ht2
        · simp at ht1
        · cases node with
          | file nm sz mt => simp at ht1
          | symlink nm mt => simp at ht1
          | dir nm mt cs =>
            rw [FSTree.wfb, Bool.and_eq_true] at hwf
            simp only [FSTree.name] at ht1 ht2
            cases hpr : profileFor P parentNode (FSTree.dir nm mt cs) with
            | some p =>
              rw [hpr] at ht1 ht2
              by_cases h5 : MatchesPattern nm p = true <;>
                simp only [h5, if_true, Bool.false_eq_true, if_false] at ht1 ht2
              · simp only [List.mem_singleton] at ht1 ht2
                rw [ht1, ht2]
              · exact walkNodesC_pairwise P opts ctx (FSTree.dir nm mt cs)
                  (parentAbs ++ [nm]) (d + 1) cs (n + 1) hwf.1 hwf.2 t1 ht1 t2 ht2 hp
            | none =>
              rw [hpr] at ht1 ht2
              exact walkNodesC_pairwise P opts ctx (FSTree.dir nm mt cs)
                (parentAbs ++ [nm]) (d + 1) cs (n + 1) hwf.1 hwf.2 t1 ht1 t2 ht2 hp

theorem walkNodesC_pairwise (P : List Profile) (opts : ScanOptions) (ctx : Ctx)
    (parentNode : FSTree) (parentAbs : Path) (d : Nat) (cs : List FSTree) (n : Nat)
    (hnd : nodupNames (cs.map FSTree.name) = true) (hwf : wfbList cs = true) :
    ∀ t1 ∈ (walkNodesC P opts ctx parentNode parentAbs d cs n).1,
      ∀ t2 ∈ (walkNodesC P opts ctx parentNode parentAbs d cs n).1,
        t1.path <+: t2.path → t1.path = t2.path := by
  intro t1 ht1 t2 ht2 hp
  match cs with
  | [] => simp [walkNodesC] at ht1
  | c :: cs2 =>
    rw [List.map_cons, nodupNames, Bool.and_eq_true] at hnd
    rw [wfbList, Bool.and_eq_true] at hwf
    have hnotmem : c.name ∉ cs2.map FSTree.name :=
      not_mem_of_contains_false (by simpa using hnd.1)
    rw [walkNodesC] at ht1 ht2
    rcases h1 : walkNodeC P opts ctx parentNode parentAbs d c n with ⟨ts1, ab1, n1⟩
    rw [h1] at ht1 ht2
    cases ab1 with
    | true =>
      simp only at ht1 ht2
      exact walkNodeC_pairwise P opts ctx parentNode parentAbs d c n hwf.1 t1
        (by rw [h1]; exact ht1) t2 (by rw [h1]; exact ht2) hp
    | false =>
      simp only at ht1 ht2
      rcases h2 : walkNodesC P opts ctx parentNode parentAbs d cs2 n1 with ⟨ts2, ab2, n2⟩
      rw [h2] at ht1 ht2
      simp only at ht1 ht2
      rcases List.mem_append.mp ht1 with hl1 | hr1 <;>
        rcases List.mem_append.mp ht2 with hl2 | hr2
      · exact walkNodeC_pairwise P opts ctx parentNode parentAbs d c n hwf.1 t1
          (by rw [h1]; exact hl1) t2 (by rw [h1]; exact hl2) hp
      · exfalso
        have ha := walkNodeC_below P opts ctx parentNode parentAbs d c n t1
          (by rw [h1]; exact hl1)
        obtain ⟨c2, hc2, hb⟩ := walkNodesC_below P opts ctx parentNode parentAbs d cs2 n1
          t2 (by rw [h2]; exact hr2)
        have hne : c.name ≠ c2.name := by
          intro hc
          exact hnotmem (hc ▸ List.mem_map_of_mem FSTree.name hc2)
        exact prefix_div ha hb hne hp
      · exfalso
        obtain ⟨c2, hc2, ha⟩ := walkNodesC_below P opts ctx parentNode parentAbs d cs2 n1
          t1 (by rw [h2]; exact hr1)
        have hb := walkNodeC_below P opts ctx parentNode parentAbs d c n t2
          (by rw [h1]; exact hl2)
        have hne : c2.name ≠ c.name := by
          intro hc
          exact hnotmem (hc ▸ List.mem_map_of_mem FSTree.name hc2)
        exact prefix_div ha hb hne hp
      · exact walkNodesC_pairwise P opts ctx parentNode parentAbs d cs2 n1 hnd.2 hwf.2 t1
          (by rw [h2]; exact hr1) t2 (by rw [h2]; exact hr2) hp

end

theorem forall2_frame_map_path {l l' : List Target} (h : List.Forall₂ frameEq l l') :
    l.map Target.path = l'.map Target.path := by
  induction h with
  | nil => rfl
  | cons hab _ ih => simp only [List.map_cons, ih, hab.1]

/-- Targets emitted for the scan root itself sit exactly at the root path. -/
theorem rootTs_path (P : List Profile) (rootPath : Path) (root : FSTree) :
    ∀ t ∈ (match matchProfilePure P root with
      | some pr => if MatchesPattern (pathBase rootPath) pr then [mkTarget rootPath root pr]
                   else []
      | none => ([] : List Target)), t.path = rootPath := by
  intro t ht
  cases hm : matchProfilePure P root with
  | some pr =>
    rw [hm] at ht
    by_cases hmp : MatchesPattern (pathBase rootPath) pr = true <;>
      simp only [hmp, if_true, Bool.false_eq_true, if_false] at ht
    · simp only [List.mem_singleton] at ht
      rw [ht]
      rfl
    · cases ht
  | none => rw [hm] at ht; cases ht

theorem scanPathC_pairwise (P : List Profile) (opts : ScanOptions) (ctx : Ctx) (fs : ExtFS)
    (rootPath : Path) (n : Nat)
    (hwf : ∀ rt, ExtFS.resolve fs rootPath = some rt → rt.wfb = true) :
    ∀ t1 ∈ (scanPathC P opts ctx fs rootPath n).1,
      ∀ t2 ∈ (scanPathC P opts ctx fs rootPath n).1,
        t1.path <+: t2.path → t1.path ≠ t2.path → t1.path = rootPath := by
  intro t1 ht1 t2 ht2 hp hne
  unfold scanPathC at ht1 ht2
  cases hres : fs.resolve rootPath with
  | none => rw [hres] at ht1; cases ht1
  | some root =>
    rw [hres] at ht1 ht2
    have hrw := hwf root hres
    by_cases hdone : ctx.done (n + 1) <;>
      simp only [hdone, if_true, Bool.false_eq_true, if_false] at ht1 ht2
    · exact rootTs_path P rootPath root t1 ht1
    · cases root with
      | file nm sz mt =>
        simp only at ht1
        exact rootTs_path P rootPath (FSTree.file nm sz mt) t1 ht1
      | symlink nm mt =>
        simp only at ht1
        exact rootTs_path P rootPath (FSTree.symlink nm mt) t1 ht1
      | dir nm mt cs =>
        rw [FSTree.wfb, Bool.and_eq_true] at hrw
        simp only at ht1 ht2
        rcases hw : walkNodesC P opts ctx (FSTree.dir nm mt cs) rootPath 1 cs (n + 1)
          with ⟨ts, ab, n2⟩
        rw [hw] at ht1 ht2
        simp only at ht1 ht2
        rcases List.mem_append.mp ht1 with hl1 | hr1
        · exact rootTs_path P rootPath (FSTree.dir nm mt cs) t1 hl1
        · rcases List.mem_append.mp ht2 with hl2 | hr2
          · exfalso
            have h2r : t2.path = rootPath :=
              rootTs_path P rootPath (FSTree.dir nm mt cs) t2 hl2
            obtain ⟨c, _, hpre⟩ := walkNodesC_below P opts ctx (FSTree.dir nm mt cs)
              rootPath 1 cs (n + 1) t1 (by rw [hw]; exact hr1)
            have hlen1 : rootPath.length + 1 ≤ t1.path.length := by
              have := hpre.length_le
              simpa using this
            have hlen2 : t1.path.length ≤ t2.path.length := hp.length_le
            rw [h2r] at hlen2
            omega
          · exact absurd (walkNodesC_pairwise P opts ctx (FSTree.dir nm mt cs) rootPath 1
              cs (n + 1) hrw.1 hrw.2 t1 (by rw [hw]; exact hr1) t2
              (by rw [hw]; exact hr2) hp) hne

/-- C1 counterexample: pointing the scanner at a root that is itself a
cleanable directory (a `node_modules` that contains a `package.json`, so the
root is emitted) still descends into it and emits the nested `dist` as a
second target — the returned list contains a target whose path is a strict
subdirectory of another's. -/
def fsC1 : ExtFS :=
  [(["a", "node_modules"],
    FSTree.dir "node_modules" 0
      [FSTree.dir "dist" 0 [FSTree.file "x" 4 0], FSTree.file "package.json" 2 0])]

def optsC1 : ScanOptions := ⟨0, false, [], false, 4⟩

theorem scan_root_descends_ce :
    ((ScanC [nodeProfile] optsC1 ⟨none⟩ fsC1 [["a", "node_modules"]]).1.map Target.path) =
      [["a", "node_modules"], ["a", "node_modules", "dist"]] ∧
    (["a", "node_modules"] : Path) <+: ["a", "node_modules", "dist"] ∧
    (["a", "node_modules"] : Path) ≠ ["a", "node_modules", "dist"] ∧
    (ScanC [nodeProfile] optsC1 ⟨none⟩ fsC1 [["a", "node_modules"]]).2 = none :=
  ⟨by decide, ⟨["dist"], rfl⟩, by decide, by decide⟩

/-- C1 (amended): for a single-root `Scan` over a snapshot whose root tree
has distinct sibling names, a returned target path can be a strict ancestor
of another only when it is the scan root's own target: targets discovered
during the walk are pairwise non-nested (a hit prunes its subtree), but the
walk still descends into an emitted root, so the root target may have
descendants among the results; roots of separate invocations of `scanPath`
may likewise nest. -/
theorem scan_pruning_amended (P : List Profile) (opts : ScanOptions) (ctx : Ctx)
    (fs : ExtFS) (rootPath : Path)
    (hwf : ∀ rt, ExtFS.resolve fs rootPath = some rt → rt.wfb = true) :
    ∀ p1 ∈ (ScanC P opts ctx fs [rootPath]).1.map Target.path,
      ∀ p2 ∈ (ScanC P opts ctx fs [rootPath]).1.map Target.path,
        p1 <+: p2 → p1 ≠ p2 → p1 = rootPath := by
  have hmain : ∀ (ts : List Target),
      (∀ t1 ∈ ts, ∀ t2 ∈ ts, t1.path <+: t2.path → t1.path ≠ t2.path → t1.path = rootPath) →
      ∀ p1 ∈ ts.map Target.path, ∀ p2 ∈ ts.map Target.path,
        p1 <+: p2 → p1 ≠ p2 → p1 = rootPath := by
    intro ts hts p1 hp1 p2 hp2 hp hne
    obtain ⟨t1, ht1, rfl⟩ := List.mem_map.mp hp1
    obtain ⟨t2, ht2, rfl⟩ := List.mem_map.mp hp2
    exact hts t1 ht1 t2 ht2 hp hne
  unfold ScanC
  unfold scanRootsC
  by_cases hdone : ctx.done (0 + 1)
  · simp only [hdone, if_true]
    intro p1 hp1
    simp at hp1
  · simp only [hdone, Bool.false_eq_true, if_false]
    rcases hsp : scanPathC P opts ctx fs rootPath (0 + 1) with ⟨ts, n2⟩
    have hts : ∀ t1 ∈ ts, ∀ t2 ∈ ts,
        t1.path <+: t2.path → t1.path ≠ t2.path → t1.path = rootPath := by
      intro t1 ht1 t2 ht2
      exact scanPathC_pairwise P opts ctx fs rootPath (0 + 1) hwf t1
        (by rw [hsp]; exact ht1) t2 (by rw [hsp]; exact ht2)
    simp only [scanRootsC, List.nil_append]
    by_cases hemp : ts.isEmpty
    · simp only [hemp, if_true]
      exact hmain ts hts
    · simp only [hemp, Bool.false_eq_true, if_false]
      rcases hct : CalculateTargetsC ctx fs ts n2 with ⟨res, ce, n3⟩
      have hframe : List.Forall₂ frameEq ts res := by
        have := calculateTargetsC_frame_aux ctx fs ts n2
        rw [hct] at this
        exact this
      have hpaths : ts.map Target.path = res.map Target.path := forall2_frame_map_path hframe
      cases ce with
      | some e => simpa only [← hpaths] using hmain ts hts
      | none => simpa only [← hpaths] using hmain ts hts

theorem scan_pruning_amended_witness :
    (∀ rt, ExtFS.resolve fsC1 ["a", "node_modules"] = some rt → rt.wfb = true) ∧
    (∀ p1 ∈ (ScanC [nodeProfile] optsC1 ⟨none⟩ fsC1 [["a", "node_modules"]]).1.map
        Target.path,
      ∀ p2 ∈ (ScanC [nodeProfile] optsC1 ⟨none⟩ fsC1 [["a", "node_modules"]]).1.map
          Target.path,
        p1 <+: p2 → p1 ≠ p2 → p1 = ["a", "node_modules"]) := by
  have hwf : ∀ rt, ExtFS.resolve fsC1 ["a", "node_modules"] = some rt → rt.wfb = true := by
    intro rt h
    rw [show ExtFS.resolve fsC1 ["a", "node_modules"] =
      some (FSTree.dir "node_modules" 0
        [FSTree.dir "dist" 0 [FSTree.file "x" 4 0], FSTree.file "package.json" 2 0])
      from rfl] at h
    cases h
    decide
  exact ⟨hwf, scan_pruning_amended [nodeProfile] optsC1 ⟨none⟩ fsC1 ["a", "node_modules"] hwf⟩

/-! ### Cancellation (claim C8): the never-cancelled context never aborts the
walk; a cancellable context produces a prefix of the uncancelled run. -/

mutual

theorem walkNodeC_noab (P : List Profile) (opts : ScanOptions) (parentNode : FSTree)
    (parentAbs : Path) (d : Nat) (node : FSTree) (n : Nat) :
    (walkNodeC P opts ⟨none⟩ parentNode parentAbs d node n).2.1 = false := by
  unfold walkNodeC
  simp only [show Ctx.done ⟨none⟩ (n + 1) = false from rfl, Bool.false_eq_true, if_false]
  by_cases h2 : (decide (opts.maxDepth > 0) && decide (opts.maxDepth < d)) = true <;>
    simp only [h2, if_true, Bool.false_eq_true, if_false]
  by_cases h3 : (!opts.includeHidden && isHidden node.name) = true <;>
    simp only [h3, if_true, Bool.false_eq_true, if_false]
  by_cases h4 : shouldIgnore (pathToString (parentAbs ++ [node.name]))
      opts.ignorePaths = true <;>
    simp only [h4, if_true, Bool.false_eq_true, if_false]
  cases node with
  | file nm sz mt => rfl
  | symlink nm mt => rfl
  | dir nm mt cs =>
    simp only [FSTree.name]
    cases hpr : profileFor P parentNode (FSTree.dir nm mt cs) with
    | some p =>
      by_cases h5 : MatchesPattern nm p = true <;>
        simp only [h5, if_true, Bool.false_eq_true, if_false]
      exact walkNodesC_noab P opts (FSTree.dir nm mt cs) (parentAbs ++ [nm]) (d + 1)
        cs (n + 1)
    | none =>
      exact walkNodesC_noab P opts (FSTree.dir nm mt cs) (parentAbs ++ [nm]) (d + 1)
        cs (n + 1)

theorem walkNodesC_noab (P : List Profile) (opts : ScanOptions) (parentNode : FSTree)
    (parentAbs : Path) (d : Nat) (cs : List FSTree) (n : Nat) :
    (walkNodesC P opts ⟨none⟩ parentNode parentAbs d cs n).2.1 = false := by
  match cs with
  | [] => rfl
  | c :: cs2 =>
    rw [walkNodesC]
    rcases h1 : walkNodeC P opts ⟨none⟩ parentNode parentAbs d c n with ⟨ts1, ab1, n1⟩
    have hab : ab1 = false := by
      have := walkNodeC_noab P opts parentNode parentAbs d c n
      rw [h1] at this
      exact this
    subst hab
    simp only
    rcases h2 : walkNodesC P opts ⟨none⟩ parentNode parentAbs d cs2 n1 with ⟨ts2, ab2, n2⟩
    have hab2 : ab2 = false := by
      have := walkNodesC_noab P opts parentNode parentAbs d cs2 n1
      rw [h2] at this
      exact this
    subst hab2
    rfl

end

mutual

/-- If the cancellable run of one callback does not abort it agrees with the
uncancelled run (targets and check count); if it aborts, its targets are an
initial segment of the uncancelled run's and the cancellation bound has been
passed. -/
theorem walkNodeC_mono (P : List Profile) (opts : ScanOptions) (k : Nat)
    (parentNode : FSTree) (parentAbs : Path) (d : Nat) (node : FSTree) (n : Nat) :
    ((walkNodeC P opts ⟨some k⟩ parentNode parentAbs d node n).2.1 = false →
      (walkNodeC P opts ⟨some k⟩ parentNode parentAbs d node n).1 =
        (walkNodeC P opts ⟨none⟩ parentNode parentAbs d node n).1 ∧
      (walkNodeC P opts ⟨some k⟩ parentNode parentAbs d node n).2.2 =
        (walkNodeC P opts ⟨none⟩ parentNode parentAbs d node n).2.2) ∧
    ((walkNodeC P opts ⟨some k⟩ parentNode parentAbs d node n).2.1 = true →
      (walkNodeC P opts ⟨some k⟩ parentNode parentAbs d node n).1 <+:
        (walkNodeC P opts ⟨none⟩ parentNode parentAbs d node n).1 ∧
      k < (walkNodeC P opts ⟨some k⟩ parentNode parentAbs d node n).2.2) := by
  by_cases hk : Ctx.done ⟨some k⟩ (n + 1) = true
  · have hkn : k < n + 1 := by simpa [Ctx.done] using hk
    unfold walkNodeC
    simp only [hk, if_true]
    refine ⟨fun h => by simp at h, fun _ => ⟨List.nil_prefix, ?_⟩⟩
    simpa using hkn
  · have hk' : Ctx.done ⟨some k⟩ (n + 1) = false := by simpa using hk
    unfold walkNodeC
    simp only [hk', show Ctx.done ⟨none⟩ (n + 1) = false from rfl, Bool.false_eq_true,
      if_false]
    by_cases h2 : (decide (opts.maxDepth > 0) && decide (opts.maxDepth < d)) = true <;>
      simp only [h2, if_true, Bool.false_eq_true, if_false]
    · exact ⟨fun _ => by simp, fun h => by simp at h⟩
    · by_cases h3 : (!opts.includeHidden && isHidden node.name) = true <;>
        simp only [h3, if_true, Bool.false_eq_true, if_false]
      · exact ⟨fun _ => by simp, fun h => by simp at h⟩
      · by_cases h4 : shouldIgnore (pathToString (parentAbs ++ [node.name]))
            opts.ignorePaths = true <;>
          simp only [h4, if_true, Bool.false_eq_true, if_false]
        · exact ⟨fun _ => by simp, fun h => by simp at h⟩
        · cases node with
          | file nm sz mt => exact ⟨fun _ => ⟨rfl, rfl⟩, fun h => by simp at h⟩
          | symlink nm mt => exact ⟨fun _ => ⟨rfl, rfl⟩, fun h => by simp at h⟩
          | dir nm mt cs =>
            simp only [FSTree.name]
            cases hpr : profileFor P parentNode (FSTree.dir nm mt cs) with
            | some p =>
              by_cases h5 : MatchesPattern nm p = true <;>
                simp only [h5, if_true, Bool.false_eq_true, if_false]
              · exact ⟨fun _ => by simp, fun h => by simp at h⟩
              · exact walkNodesC_mono P opts k (FSTree.dir nm mt cs) (parentAbs ++ [nm])
                  (d + 1) cs (n + 1)
            | none =>
              exact walkNodesC_mono P opts k (FSTree.dir nm mt cs) (parentAbs ++ [nm])
                (d + 1) cs (n + 1)

theorem walkNodesC_mono (P : List Profile) (opts : ScanOptions) (k : Nat)
    (parentNode : FSTree) (parentAbs : Path) (d : Nat) (cs : List FSTree) (n : Nat) :
    ((walkNodesC P opts ⟨some k⟩ parentNode parentAbs d cs n).2.1 = false →
      (walkNodesC P opts ⟨some k⟩ parentNode parentAbs d cs n).1 =
        (walkNodesC P opts ⟨none⟩ parentNode parentAbs d cs n).1 ∧
      (walkNodesC P opts ⟨some k⟩ parentNode parentAbs d cs n).2.2 =
        (walkNodesC P opts ⟨none⟩ parentNode parentAbs d cs n).2.2) ∧
    ((walkNodesC P opts ⟨some k⟩ parentNode parentAbs d cs n).2.1 = true →
      (walkNodesC P opts ⟨some k⟩ parentNode parentAbs d cs n).1 <+:
        (walkNodesC P opts ⟨none⟩ parentNode parentAbs d cs n).1 ∧
      k < (walkNodesC P opts ⟨some k⟩ parentNode parentAbs d cs n).2.2) := by
  match cs with
  | [] => exact ⟨fun _ => ⟨rfl, rfl⟩, fun h => by simp [walkNodesC] at h⟩
  | c :: cs2 =>
    rw [walkNodesC, walkNodesC]
    rcases hk1 : walkNodeC P opts ⟨some k⟩ parentNode parentAbs d c n with ⟨tsk, abk, n1k⟩
    rcases hi1 : walkNodeC P opts ⟨none⟩ parentNode parentAbs d c n with ⟨tsi, abi, n1i⟩
    have habi : abi = false := by
      have := walkNodeC_noab P opts parentNode parentAbs d c n
      rw [hi1] at this
      exact this
    subst habi
    have hm := walkNodeC_mono P opts k parentNode parentAbs d c n
    rw [hk1, hi1] at hm
    simp only at hm
    rcases hi2 : walkNodesC P opts ⟨none⟩ parentNode parentAbs d cs2 n1i
      with ⟨tsi2, abi2, ni2⟩
    cases abk with
    | true =>
      obtain ⟨hpre, hlt⟩ := hm.2 rfl
      simp only
      rw [hi2]
      exact ⟨fun h => by simp at h,
        fun _ => ⟨hpre.trans (List.prefix_append _ _), hlt⟩⟩
    | false =>
      obtain ⟨hts, hn⟩ := hm.1 rfl
      subst hts hn
      simp only
      rcases hk2 : walkNodesC P opts ⟨some k⟩ parentNode parentAbs d cs2 n1k
        with ⟨tsk2, abk2, nk2⟩
      have hm2 := walkNodesC_mono P opts k parentNode parentAbs d cs2 n1k
      rw [hk2, hi2] at hm2
      simp only at hm2
      rw [hi2]
      simp only
      constructor
      · intro h
        obtain ⟨h1, h2⟩ := hm2.1 h
        exact ⟨by rw [h1], h2⟩
      · intro h
        obtain ⟨h1, h2⟩ := hm2.2 h
        refine ⟨?_, h2⟩
        obtain ⟨w, hw⟩ := h1
        exact ⟨w, by rw [List.append_assoc, hw]⟩

end

theorem map_pre {α β : Type} (f : α → β) {l1 l2 : List α} (h : l1 <+: l2) :
    l1.map f <+: l2.map f := by
  obtain ⟨t, rfl⟩ := h
  exact ⟨t.map f, by simp⟩

/-- `scanPath` under a cancellable context either agrees with the uncancelled
run, or returns an initial segment of its targets with the cancellation
bound passed by the returned check count. -/
theorem scanPathC_mono (P : List Profile) (opts : ScanOptions) (k : Nat) (fs : ExtFS)
    (rootPath : Path) (n : Nat) :
    ((scanPathC P opts ⟨some k⟩ fs rootPath n).1 =
        (scanPathC P opts ⟨none⟩ fs rootPath n).1 ∧
      (scanPathC P opts ⟨some k⟩ fs rootPath n).2 =
        (scanPathC P opts ⟨none⟩ fs rootPath n).2) ∨
    ((scanPathC P opts ⟨some k⟩ fs rootPath n).1 <+:
        (scanPathC P opts ⟨none⟩ fs rootPath n).1 ∧
      k < (scanPathC P opts ⟨some k⟩ fs rootPath n).2) := by
  unfold scanPathC
  cases hres : fs.resolve rootPath with
  | none => exact Or.inl ⟨rfl, rfl⟩
  | some root =>
    simp only
    by_cases hk : Ctx.done ⟨some k⟩ (n + 1) = true
    · have hkn : k < n + 1 := by simpa [Ctx.done] using hk
      simp only [hk, if_true, show Ctx.done ⟨none⟩ (n + 1) = false from rfl,
        Bool.false_eq_true, if_false]
      refine Or.inr ⟨?_, by simpa using hkn⟩
      cases root with
      | file nm sz mt => exact List.prefix_refl _
      | symlink nm mt => exact List.prefix_refl _
      | dir nm mt cs =>
        simp only
        rcases hw : walkNodesC P opts ⟨none⟩ (FSTree.dir nm mt cs) rootPath 1 cs (n + 1)
          with ⟨tsi, abi, ni⟩
        exact List.prefix_append _ _
    · have hk' : Ctx.done ⟨some k⟩ (n + 1) = false := by simpa using hk
      simp only [hk', show Ctx.done ⟨none⟩ (n + 1) = false from rfl, Bool.false_eq_true,
        if_false]
      cases root with
      | file nm sz mt => exact Or.inl ⟨rfl, rfl⟩
      | symlink nm mt => exact Or.inl ⟨rfl, rfl⟩
      | dir nm mt cs =>
        simp only
        rcases hwk : walkNodesC P opts ⟨some k⟩ (FSTree.dir nm mt cs) rootPath 1 cs (n + 1)
          with ⟨tsk, abk, nk⟩
        rcases hwi : walkNodesC P opts ⟨none⟩ (FSTree.dir nm mt cs) rootPath 1 cs (n + 1)
          with ⟨tsi, abi, ni⟩
        have hm := walkNodesC_mono P opts k (FSTree.dir nm mt cs) rootPath 1 cs (n + 1)
        rw [hwk, hwi] at hm
        simp only at hm
        cases abk with
        | false =>
          obtain ⟨h1, h2⟩ := hm.1 rfl
          exact Or.inl ⟨by rw [h1], h2⟩
        | true =>
          obtain ⟨h1, h2⟩ := hm.2 rfl
          refine Or.inr ⟨?_, h2⟩
          obtain ⟨w, hw⟩ := h1
          exact ⟨w, by rw [List.append_assoc, hw]⟩

/-- The already-accumulated targets are an initial segment of whatever the
root loop returns. -/
theorem scanRootsC_acc_pre (P : List Profile) (opts : ScanOptions) (ctx : Ctx)
    (fs : ExtFS) : ∀ (ps : List Path) (acc : List Target) (n : Nat),
    acc <+: (scanRootsC P opts ctx fs ps acc n).1 := by
  intro ps
  induction ps with
  | nil => intro acc n; exact List.prefix_refl _
  | cons p ps ih =>
    intro acc n
    rw [scanRootsC]
    by_cases hk : ctx.done (n + 1) = true
    · simp only [hk, if_true]
      exact List.prefix_refl _
    · have hk' : ctx.done (n + 1) = false := by simpa using hk
      simp only [hk', Bool.false_eq_true, if_false]
      rcases hsp : scanPathC P opts ctx fs p (n + 1) with ⟨ts, n2⟩
      simp only
      exact (List.prefix_append _ _).trans (ih (acc ++ ts) n2)

/-- The uncancelled root loop never reports an error. -/
theorem scanRootsC_inf_ok (P : List Profile) (opts : ScanOptions) (fs : ExtFS) :
    ∀ (ps : List Path) (acc : List Target) (n : Nat),
    (scanRootsC P opts ⟨none⟩ fs ps acc n).2.1 = none := by
  intro ps
  induction ps with
  | nil => intro acc n; rfl
  | cons p ps ih =>
    intro acc n
    rw [scanRootsC]
    simp only [show Ctx.done ⟨none⟩ (n + 1) = false from rfl, Bool.false_eq_true, if_false]
    rcases hsp : scanPathC P opts ⟨none⟩ fs p (n + 1) with ⟨ts, n2⟩
    exact ih (acc ++ ts) n2

/-- Once the cancellation bound is passed, the root loop stops at its next
check: it adds nothing, reports no error (empty list) or the cancellation
error, and the bound stays passed. -/
theorem scanRootsC_after (P : List Profile) (opts : ScanOptions) (fs : ExtFS) (k : Nat)
    (ps : List Path) (acc : List Target) (n : Nat) (h : k < n) :
    (scanRootsC P opts ⟨some k⟩ fs ps acc n).1 = acc ∧
    ((scanRootsC P opts ⟨some k⟩ fs ps acc n).2.1 = none ∨
      (scanRootsC P opts ⟨some k⟩ fs ps acc n).2.1 = some ScanErr.canceled) ∧
    k < (scanRootsC P opts ⟨some k⟩ fs ps acc n).2.2 := by
  cases ps with
  | nil => exact ⟨rfl, Or.inl rfl, h⟩
  | cons p ps =>
    have hk : Ctx.done ⟨some k⟩ (n + 1) = true := by
      simp only [Ctx.done]
      exact decide_eq_true (by omega)
    rw [scanRootsC]
    simp only [hk, if_true]
    exact ⟨by simp, by simp, by omega⟩

/-- The cancellable root loop against the uncancelled one: either they agree
with no error, or the cancellable one returns an initial segment of the
targets with the cancellation error, or it returns an initial segment with
no error but with the cancellation bound passed (the signal fired while the
last root was being walked). -/
theorem scanRootsC_mono (P : List Profile) (opts : ScanOptions) (fs : ExtFS) (k : Nat) :
    ∀ (ps : List Path) (acc : List Target) (n : Nat),
    ((scanRootsC P opts ⟨some k⟩ fs ps acc n).1 =
        (scanRootsC P opts ⟨none⟩ fs ps acc n).1 ∧
      (scanRootsC P opts ⟨some k⟩ fs ps acc n).2.1 = none ∧
      (scanRootsC P opts ⟨some k⟩ fs ps acc n).2.2 =
        (scanRootsC P opts ⟨none⟩ fs ps acc n).2.2) ∨
    ((scanRootsC P opts ⟨some k⟩ fs ps acc n).1 <+:
        (scanRootsC P opts ⟨none⟩ fs ps acc n).1 ∧
      (scanRootsC P opts ⟨some k⟩ fs ps acc n).2.1 = some ScanErr.canceled) ∨
    ((scanRootsC P opts ⟨some k⟩ fs ps acc n).1 <+:
        (scanRootsC P opts ⟨none⟩ fs ps acc n).1 ∧
      (scanRootsC P opts ⟨some k⟩ fs ps acc n).2.1 = none ∧
      k < (scanRootsC P opts ⟨some k⟩ fs ps acc n).2.2) := by
  intro ps
  induction ps with
  | nil => intro acc n; exact Or.inl ⟨rfl, rfl, rfl⟩
  | cons p ps ih =>
    intro acc n
    rw [scanRootsC, scanRootsC]
    simp only [show Ctx.done ⟨none⟩ (n + 1) = false from rfl, Bool.false_eq_true, if_false]
    by_cases hk : Ctx.done ⟨some k⟩ (n + 1) = true
    · simp only [hk, if_true]
      rcases hspi : scanPathC P opts ⟨none⟩ fs p (n + 1) with ⟨tsi, ni⟩
      simp only
      refine Or.inr (Or.inl ⟨?_, by simp⟩)
      exact (List.prefix_append _ _).trans (scanRootsC_acc_pre P opts ⟨none⟩ fs ps
        (acc ++ tsi) ni)
    · have hk' : Ctx.done ⟨some k⟩ (n + 1) = false := by simpa using hk
      simp only [hk', Bool.false_eq_true, if_false]
      rcases hspk : scanPathC P opts ⟨some k⟩ fs p (n + 1) with ⟨tsk, nk⟩
      rcases hspi : scanPathC P opts ⟨none⟩ fs p (n + 1) with ⟨tsi, ni⟩
      have hm := scanPathC_mono P opts k fs p (n + 1)
      rw [hspk, hspi] at hm
      simp only at hm
      rcases hm with ⟨hts, hn⟩ | ⟨hpre, hlt⟩
      · subst hts hn
        exact ih (acc ++ tsk) nk
      · simp only
        obtain ⟨hacc, herr, hcnt⟩ := scanRootsC_after P opts fs k ps (acc ++ tsk) nk hlt
        have hup : (scanRootsC P opts ⟨some k⟩ fs ps (acc ++ tsk) nk).1 <+:
            (scanRootsC P opts ⟨none⟩ fs ps (acc ++ tsi) ni).1 := by
          rw [hacc]
          refine List.IsPrefix.trans ?_ (scanRootsC_acc_pre P opts ⟨none⟩ fs ps
            (acc ++ tsi) ni)
          obtain ⟨w, hw⟩ := hpre
          exact ⟨w, by rw [List.append_assoc, hw]⟩
        rcases herr with he | he
        · exact Or.inr (Or.inr ⟨hup, he, hcnt⟩)
        · exact Or.inr (Or.inl ⟨hup, he⟩)

theorem calcGo_errs_le (ctx : Ctx) (fs : ExtFS) :
    ∀ (rest acc : List Target) (errs n : Nat),
    (calcGo ctx fs acc errs n rest).2.1 ≤ errs + countFailures fs rest := by
  intro rest
  induction rest with
  | nil => intro acc errs n; simp [calcGo, countFailures]
  | cons t ts ih =>
    intro acc errs n
    rw [calcGo]
    by_cases hc : ctx.done (n + 1) = true
    · simp only [hc, if_true]
      exact Nat.le_add_right _ _
    · have hc' : ctx.done (n + 1) = false := by simpa using hc
      simp only [hc', Bool.false_eq_true, if_false]
      cases hcal : Calculate fs t.path with
      | none =>
        simp only
        have := ih (acc ++ [t]) (errs + 1) (n + 1)
        have hcf : countFailures fs (t :: ts) = countFailures fs ts + 1 := by
          simp [countFailures, List.countP_cons, hcal]
        omega
      | some sz =>
        simp only
        have := ih (acc ++ [{ t with size := sz }]) errs (n + 1)
        have hcf : countFailures fs ts ≤ countFailures fs (t :: ts) := by
          simp [countFailures, List.countP_cons, hcal]
        omega

/-- With a batch none of whose paths fails to size, the only error
`CalculateTargets` can report is the context's own; the returned slice has
the input's paths unchanged up to the cancellation cut (here: the whole
batch, sizes aside). -/
theorem calculateTargetsC_err_class (ctx : Ctx) (fs : ExtFS) (targets : List Target)
    (n : Nat) (h : countFailures fs targets = 0) :
    ((CalculateTargetsC ctx fs targets n).2.1 = none ∨
      (CalculateTargetsC ctx fs targets n).2.1 = some CalcErr.canceled) ∧
    (CalculateTargetsC ctx fs targets n).1.map Target.path = targets.map Target.path := by
  constructor
  · unfold CalculateTargetsC
    by_cases he : targets.isEmpty
    · simp [he]
    · simp only [he, Bool.false_eq_true, if_false]
      rcases hgo : calcGo ctx fs [] 0 n targets with ⟨res, errs, n2, cancelled⟩
      have hle := calcGo_errs_le ctx fs targets [] 0 n
      rw [hgo] at hle
      simp only at hle
      rw [h] at hle
      cases cancelled with
      | true => simp
      | false =>
        have herr : ¬ (errs > 0) := by omega
        simp [herr]
  · exact (forall2_frame_map_path (calculateTargetsC_frame_aux ctx fs targets n)).symm

/-- An error-free uncancelled sizing pass means no path of the batch failed
to size. -/
theorem calculateTargetsC_ok_no_failures (fs : ExtFS) (targets : List Target) (n : Nat)
    (h : (CalculateTargetsC ⟨none⟩ fs targets n).2.1 = none) :
    countFailures fs targets = 0 := by
  unfold CalculateTargetsC at h
  by_cases he : targets.isEmpty
  · cases targets with
    | nil => rfl
    | cons a l => simp [List.isEmpty] at he
  · simp only [he, Bool.false_eq_true, if_false] at h
    obtain ⟨herr, hcan⟩ := calcGo_nocancel fs targets [] 0 n
    rcases hgo : calcGo ⟨none⟩ fs [] 0 n targets with ⟨res, errs, n2, cancelled⟩
    rw [hgo] at herr hcan h
    simp only at herr hcan h
    subst hcan
    simp only [Bool.false_eq_true, if_false] at h
    by_cases hpos : errs > 0
    · simp [hpos] at h
    · simpa using herr.symm.trans (by omega)

/-- Two scan roots: `r1` holds two directories matching the Node.js profile
(`node_modules` before `dist` in lexical walk order) plus the
`package.json` that makes the profile match, `r2` one more. -/
def fsC8 : ExtFS :=
  [(["r1"], FSTree.dir "r1" 0
      [FSTree.dir "node_modules" 0 [FSTree.file "a" 3 0],
       FSTree.file "package.json" 2 0,
       FSTree.dir "dist" 0 [FSTree.file "b" 5 0]]),
   (["r2"], FSTree.dir "r2" 0
      [FSTree.dir "node_modules" 0 [FSTree.file "c" 7 0],
       FSTree.file "package.json" 2 0])]

def optsC8 : ScanOptions := ⟨0, false, [], false, 4⟩

/-- C8 counterexample: a context whose signal fires while the walk of the
first root is still in progress — after `r1/node_modules` has been emitted
but before the walk reaches `r1/dist` (the uncancelled run returns both,
plus `r2/node_modules`).  `Scan` returns the cancellation error as its
top-level error but KEEPS the target already gathered from the root
currently being walked: the claim's "discards the targets gathered so far
from the current root" is false on the code (`scanPath` deliberately
converts the walk's `context.Canceled` into a nil error and returns the
partial target list, which the root loop accumulates before its own context
check stops it). -/
theorem scan_cancel_keeps_partial_ce :
    ((ScanC [nodeProfile] optsC8 ⟨some 4⟩ fsC8 [["r1"], ["r2"]]).1.map Target.path =
      [["r1", "node_modules"]]) ∧
    (ScanC [nodeProfile] optsC8 ⟨some 4⟩ fsC8 [["r1"], ["r2"]]).2 =
      some ScanErr.canceled ∧
    ((ScanC [nodeProfile] optsC8 ⟨none⟩ fsC8 [["r1"], ["r2"]]).1.map Target.path =
      [["r1", "node_modules"], ["r1", "dist"], ["r2", "node_modules"]]) ∧
    (ScanC [nodeProfile] optsC8 ⟨none⟩ fsC8 [["r1"], ["r2"]]).2 = none :=
  ⟨by decide, by decide, by decide, by decide⟩

/-- C8 (amended): when the cancellation signal fires during a synchronous
`Scan` whose uncancelled run would have succeeded, the returned target paths
are an initial segment of the uncancelled run's — the targets of completed
roots AND the partial targets already gathered from the root being walked
are all preserved, nothing is discarded — and the top-level error is either
the cancellation error (surfaced by the root loop), the cancellation error
wrapped as the sizing pass's failure (when the signal fired during the last
root's walk or during sizing), or nil (when every root had already been
walked and sized, or nothing had been collected when the signal fired). -/
theorem scan_cancellation_amended (P : List Profile) (opts : ScanOptions) (fs : ExtFS)
    (paths : List Path) (k : Nat)
    (hok : (ScanC P opts ⟨none⟩ fs paths).2 = none) :
    (ScanC P opts ⟨some k⟩ fs paths).1.map Target.path <+:
      (ScanC P opts ⟨none⟩ fs paths).1.map Target.path ∧
    ((ScanC P opts ⟨some k⟩ fs paths).2 = none ∨
     (ScanC P opts ⟨some k⟩ fs paths).2 = some ScanErr.canceled ∨
     (ScanC P opts ⟨some k⟩ fs paths).2 = some (ScanErr.calcFailed CalcErr.canceled)) := by
  rcases hri : scanRootsC P opts ⟨none⟩ fs paths [] 0 with ⟨acci, ei, mi⟩
  have hei : ei = none := by
    have := scanRootsC_inf_ok P opts fs paths [] 0
    rw [hri] at this
    exact this
  subst hei
  rcases hrk : scanRootsC P opts ⟨some k⟩ fs paths [] 0 with ⟨acck, ek, mk⟩
  have htri := scanRootsC_mono P opts fs k paths [] 0
  rw [hri, hrk] at htri
  simp only at htri
  unfold ScanC at hok ⊢
  rw [hri] at hok ⊢
  rw [hrk]
  simp only at hok ⊢
  rcases htri with ⟨hacc, hek, hm⟩ | ⟨hpre, hek⟩ | ⟨hpre, hek, hlt⟩
  · subst hacc hek hm
    by_cases hemp : acck.isEmpty = true
    · simp only [hemp, if_true]
      exact ⟨List.prefix_refl _, Or.inl (by simp)⟩
    · simp only [hemp, Bool.false_eq_true, if_false] at hok ⊢
      rcases hcti : CalculateTargetsC ⟨none⟩ fs acck mk with ⟨resi, cei, ni2⟩
      rw [hcti] at hok
      cases cei with
      | some ce => simp at hok
      | none =>
        simp only at hok ⊢
        have hcf : countFailures fs acck = 0 :=
          calculateTargetsC_ok_no_failures fs acck mk (by rw [hcti])
        have hmapi : resi.map Target.path = acck.map Target.path := by
          have := (calculateTargetsC_err_class ⟨none⟩ fs acck mk hcf).2
          rw [hcti] at this
          exact this
        rcases hctk : CalculateTargetsC ⟨some k⟩ fs acck mk with ⟨resk, cek, nk2⟩
        have hcls := calculateTargetsC_err_class ⟨some k⟩ fs acck mk hcf
        rw [hctk] at hcls
        simp only at hcls
        rcases hcls.1 with h | h <;> subst h <;> simp only
        · refine ⟨?_, Or.inl (by simp)⟩
          rw [hcls.2, hmapi]
        · refine ⟨?_, Or.inr (Or.inr (by simp))⟩
          rw [hcls.2, hmapi]
  · subst hek
    simp only
    refine ⟨?_, Or.inr (Or.inl (by simp))⟩
    by_cases hemp : acci.isEmpty = true
    · simp only [hemp, if_true]
      exact map_pre Target.path hpre
    · simp only [hemp, Bool.false_eq_true, if_false] at hok ⊢
      rcases hcti : CalculateTargetsC ⟨none⟩ fs acci mi with ⟨resi, cei, ni2⟩
      rw [hcti] at hok
      cases cei with
      | some ce => simp at hok
      | none =>
        simp only
        have hcf : countFailures fs acci = 0 :=
          calculateTargetsC_ok_no_failures fs acci mi (by rw [hcti])
        have hmapi : resi.map Target.path = acci.map Target.path := by
          have := (calculateTargetsC_err_class ⟨none⟩ fs acci mi hcf).2
          rw [hcti] at this
          exact this
        rw [hmapi]
        exact map_pre Target.path hpre
  · subst hek
    simp only
    by_cases hek2 : acck.isEmpty = true
    · have hn : acck = [] := by
        cases acck with
        | nil => rfl
        | cons a l => simp [List.isEmpty] at hek2
      subst hn
      simp only [hek2, if_true]
      exact ⟨List.nil_prefix, Or.inl (by simp)⟩
    · simp only [hek2, Bool.false_eq_true, if_false]
      by_cases hemp : acci.isEmpty = true
      · exfalso
        have hn : acci = [] := by
          cases acci with
          | nil => rfl
          | cons a l => simp [List.isEmpty] at hemp
        subst hn
        have : acck = [] := List.prefix_nil.mp hpre
        subst this
        simp at hek2
      · simp only [hemp, Bool.false_eq_true, if_false] at hok ⊢
        rcases hcti : CalculateTargetsC ⟨none⟩ fs acci mi with ⟨resi, cei, ni2⟩
        rw [hcti] at hok
        cases cei with
        | some ce => simp at hok
        | none =>
          simp only
          have hcfi : countFailures fs acci = 0 :=
            calculateTargetsC_ok_no_failures fs acci mi (by rw [hcti])
          have hmapi : resi.map Target.path = acci.map Target.path := by
            have := (calculateTargetsC_err_class ⟨none⟩ fs acci mi hcfi).2
            rw [hcti] at this
            exact this
          have hcf : countFailures fs acck = 0 := by
            have hle : countFailures fs acck ≤ countFailures fs acci := by
              unfold countFailures
              exact hpre.sublist.countP_le _
            omega
          rcases hctk : CalculateTargetsC ⟨some k⟩ fs acck mk with ⟨resk, cek, nk2⟩
          have hcls := calculateTargetsC_err_class ⟨some k⟩ fs acck mk hcf
          rw [hctk] at hcls
          simp only at hcls
          rcases hcls.1 with h | h <;> subst h <;> simp only
          · refine ⟨?_, Or.inl (by simp)⟩
            rw [hcls.2, hmapi]
            exact map_pre Target.path hpre
          · refine ⟨?_, Or.inr (Or.inr (by simp))⟩
            rw [hcls.2, hmapi]
            exact map_pre Target.path hpre

theorem scan_cancellation_amended_witness :
    (ScanC [nodeProfile] optsC8 ⟨none⟩ fsC8 [["r1"], ["r2"]]).2 = none ∧
    ((ScanC [nodeProfile] optsC8 ⟨some 4⟩ fsC8 [["r1"], ["r2"]]).1.map Target.path <+:
      (ScanC [nodeProfile] optsC8 ⟨none⟩ fsC8 [["r1"], ["r2"]]).1.map Target.path ∧
     ((ScanC [nodeProfile] optsC8 ⟨some 4⟩ fsC8 [["r1"], ["r2"]]).2 = none ∨
      (ScanC [nodeProfile] optsC8 ⟨some 4⟩ fsC8 [["r1"], ["r2"]]).2 =
        some ScanErr.canceled ∨
      (ScanC [nodeProfile] optsC8 ⟨some 4⟩ fsC8 [["r1"], ["r2"]]).2 =
        some (ScanErr.calcFailed CalcErr.canceled))) :=
  ⟨by decide,
   scan_cancellation_amended [nodeProfile] optsC8 fsC8 [["r1"], ["r2"]] 4 (by decide)⟩

end Rosia
